import Mathlib

/-!
Verification of the two transfer-matrix builders of the dagflow-detector
repository: the axis-distortion matrix builder
(`detector/AxisDistortionMatrix.py`, function `_axisdistortion_python`)
and the rebin matrix builder (`detector/RebinMatrix.py`, functions
`_calc_rebin_matrix_python` and `_calc_rebin_matrix_numba`).

The Python code is shallowly embedded over exact rationals (ℚ):
edge sequences become `List ℚ`, the dense output buffer becomes a total
function `Nat → Nat → ℚ` together with its explicit shape, numpy element
access becomes a checked access with Python semantics (negative indices
wrap once; anything else out of range is an index error), and each loop
becomes a structurally recursive function.  Loops whose iteration count
is bounded by the data receive an explicit fuel argument; the top-level
entry points pass fuel that dominates the loop bounds, and run out of
fuel only on states the real loops never reach (`DErr.fuelOut`).
-/

/-- Errors of the embedded distortion builder. `readOOB` is a numpy
IndexError raised by an out-of-range read, `writeOOB` by an out-of-range
write; `fuelOut` marks exhaustion of the artificial fuel bound. -/
inductive DErr where
  | readOOB : DErr
  | writeOOB : DErr
  | fuelOut : DErr
deriving DecidableEq, Repr

/-- Errors of the embedded rebin builder, one constructor per `raise` /
`assert` / implicit exception site in the two Python functions. -/
inductive RErr where
  /-- one of the two precondition `assert`s fails (AssertionError). -/
  | assertPre : RErr
  /-- `next(stepper_old)` on the exhausted iterator (StopIteration). -/
  | stopIter : RErr
  /-- `raise RuntimeError("Inconsistent edges (outer)")` in the python mode. -/
  | outerInconsistent : RErr
  /-- `raise RuntimeError("Inconsistent edges (inner)")` in the python mode. -/
  | innerInconsistent : RErr
  /-- `assert iold < nold` failing in the numba mode (AssertionError). -/
  | assertOuter : RErr
  /-- `assert isclose(edge_new, edge_old, ...)` failing in the numba mode. -/
  | assertInner : RErr
  /-- numpy IndexError from an out-of-range matrix write. -/
  | indexErr : RErr
deriving DecidableEq, Repr

/-- The dense output buffer, as a total function; the builders carry the
actual shape `(nrows, ncols)` separately and only touch cells inside it. -/
def Mat : Type := Nat → Nat → ℚ

/-- The all-zero buffer. -/
def zeroM : Mat := fun _ _ => 0

/-- Point update of a buffer cell. -/
def matSet (m : Mat) (r c : Nat) (v : ℚ) : Mat :=
  fun r2 c2 => if r2 = r ∧ c2 = c then v else m r2 c2

/-- Sum of column `c` over the `nr` destination rows. -/
def colSum (nr : Nat) (m : Mat) (c : Nat) : ℚ :=
  (Finset.range nr).sum fun r => m r c

/-- Python index resolution: a negative index counts from the end. -/
def pyIx (n : Nat) (i : Int) : Int := if i < 0 then i + n else i

/-- Checked element read with Python/numpy semantics: negative indices
wrap once, anything still out of `[0, length)` is an IndexError
(modelled as `none`). -/
def pyGetL (xs : List ℚ) (i : Int) : Option ℚ :=
  let j := pyIx xs.length i
  if 0 ≤ j ∧ j < (xs.length : Int) then some (xs.getD j.toNat 0) else none

/-- Checked write `mat[r, c] = v` into a buffer of shape
`(nrows, ncols)`, with Python/numpy index semantics. -/
def pySetM (nrows ncols : Nat) (mat : Mat) (r c : Int) (v : ℚ) :
    Except DErr Mat :=
  let r2 := pyIx nrows r
  let c2 := pyIx ncols c
  if 0 ≤ r2 ∧ r2 < (nrows : Int) ∧ 0 ≤ c2 ∧ c2 < (ncols : Int) then
    .ok (matSet mat r2.toNat c2.toNat v)
  else .error .writeOOB

/-- numpy `isclose(a, b, rtol, atol)` (no NaN/inf over ℚ):
`|a - b| ≤ atol + rtol * |b|`. -/
def npisclose (a b atol rtol : ℚ) : Bool := |a - b| ≤ atol + rtol * |b|

/-- The initialization threshold `-1e10` of `_axisdistortion_python`. -/
def thresholdQ : ℚ := -(10 ^ 10)

/-- The inner `while lefty_fine >= edges_target[idxy + 1]` loop of
`_axisdistortion_python` (lines 137-139): advance the destination row
cursor `idxy`; after an increment, `break` as soon as `idxy > nbinsy`.
The loop condition itself reads `edges_target[idxy + 1]`, so the read is
attempted before the break guard can fire. -/
def advanceIdxyF : Nat → List ℚ → Nat → ℚ → Nat → Except DErr Nat
  | 0, _, _, _, _ => .error .fuelOut
  | fuel + 1, et, ny, ly, iy =>
    match pyGetL et ((iy : Int) + 1) with
    | none => .error .readOOB
    | some t =>
      if t ≤ ly then
        if ny < iy + 1 then .ok (iy + 1)
        else advanceIdxyF fuel et ny ly (iy + 1)
      else .ok iy

/-- The breakpoint selection of the main scan (lines 125-135 of
`_axisdistortion_python`): compare `edges_original[idxx0+1]` with
`edges_backwards[idxx1+1]` by strict `<`; on `<` the breakpoint comes
from axis 0 (`rightx = right_orig`, `righty = edges_modified[idxx0+1]`),
otherwise — including exact ties — from axis 1 (`rightx =
right_backwards`, `righty = edges_target[idxx1+1]`). -/
def scanChoice (eo em eb et : List ℚ) (i0 i1 : Int) :
    Except DErr (Nat × ℚ × ℚ) :=
  match pyGetL eo (i0 + 1), pyGetL eb (i1 + 1) with
  | some ro, some rb =>
    if ro < rb then
      match pyGetL em (i0 + 1) with
      | some ry => .ok (0, ro, ry)
      | none => .error .readOOB
    else
      match pyGetL et (i1 + 1) with
      | some ry => .ok (1, rb, ry)
      | none => .error .readOOB
  | _, _ => .error .readOOB

/-- The main `while True` scan of `_axisdistortion_python`
(lines 124-163).  One iteration: select the next fine breakpoint
(`scanChoice`), advance the destination row cursor (`advanceIdxyF`, with
a fresh inner bound `et.length + 1`), assign
`matrix[idxy, idxx0] = (rightx - leftx) / width_coarse`, then advance
the cursor of the axis that produced the breakpoint, breaking out
(normal return) when it reaches `nbinsx`; on an axis-0 advance the
coarse width is recomputed from the two edges of the new source bin. -/
def scanLoopF : Nat → List ℚ → List ℚ → List ℚ → List ℚ → Nat → Nat →
    Nat → Nat → Int → Int → Nat → ℚ → ℚ → ℚ → Mat → Mat × Option DErr
  | 0, _, _, _, _, _, _, _, _, _, _, _, _, _, _, mat => (mat, some .fuelOut)
  | fuel + 1, eo, em, eb, et, nx, ny, nrows, ncols, i0, i1, iy, lx, ly, wc,
      mat =>
    match scanChoice eo em eb et i0 i1 with
    | .error e => (mat, some e)
    | .ok (ax, rx, ry) =>
      match advanceIdxyF (et.length + 1) et ny ly iy with
      | .error e => (mat, some e)
      | .ok iy2 =>
        match pySetM nrows ncols mat (iy2 : Int) i0 ((rx - lx) / wc) with
        | .error e => (mat, some e)
        | .ok mat2 =>
          if ax = 0 then
            if (nx : Int) ≤ i0 + 1 then (mat2, none)
            else
              match pyGetL eo (i0 + 2), pyGetL eo (i0 + 1) with
              | some a, some b =>
                scanLoopF fuel eo em eb et nx ny nrows ncols (i0 + 1) i1
                  iy2 rx ry (a - b) mat2
              | _, _ => (mat2, some .readOOB)
          else
            if (nx : Int) ≤ i1 + 1 then (mat2, none)
            else
              scanLoopF fuel eo em eb et nx ny nrows ncols i0 (i1 + 1)
                iy2 rx ry wc mat2

/-- Phase 1 of `_axisdistortion_python` (lines 106-121): starting from
`idxx0 = idxx1 = -1` and `leftx = lefty = threshold`, while the running
left edge still fails the start condition, advance the axis whose next
edge is smaller (strict `<`, ties to axis 1), loading `leftx, lefty`
from the *head* entries of that axis; if the advanced index reaches
`nbinsx` the whole build returns with the matrix untouched (`none`). -/
def seekLoopF : Nat → List ℚ → List ℚ → List ℚ → List ℚ → ℚ → ℚ → Nat →
    Int → Int → ℚ → ℚ → Except DErr (Option (Int × Int × ℚ × ℚ))
  | 0, _, _, _, _, _, _, _, _, _, _, _ => .error .fuelOut
  | fuel + 1, eo, em, eb, et, minO, minT, nx, i0, i1, lx, ly =>
    if lx ≤ thresholdQ ∨ lx < minO ∨ ly < minT then
      match pyGetL eo (i0 + 1), pyGetL eb (i1 + 1) with
      | some a, some b =>
        if a < b then
          match pyGetL eo 0, pyGetL em 0 with
          | some x, some y =>
            if (nx : Int) ≤ i0 + 1 then .ok none
            else seekLoopF fuel eo em eb et minO minT nx (i0 + 1) i1 x y
          | _, _ => .error .readOOB
        else
          match pyGetL eb 0, pyGetL et 0 with
          | some x, some y =>
            if (nx : Int) ≤ i1 + 1 then .ok none
            else seekLoopF fuel eo em eb et minO minT nx i0 (i1 + 1) x y
          | _, _ => .error .readOOB
      | _, _ => .error .readOOB
    else .ok (some (i0, i1, lx, ly))

/-- `_axisdistortion_python(edges_original, edges_modified,
edges_backwards, matrix)`.  `edges_target` is aliased to
`edges_original` (line 95).  The minima of the original/target axes are
read first (an IndexError on empty input precedes the zero fill), the
output buffer is wholly overwritten with zeros (line 101), then phase 1
seeks the start of the overlap — returning the all-zero buffer
normally if it exhausts an axis — and on success the main scan runs
with `width_coarse` initialized from bin `idxx0` (Python indexing, so
`idxx0 = -1` reads the last edge). -/
def axisdistortionPython (eo em eb : List ℚ) (nrows ncols : Nat)
    (init : Mat) : Mat × Option DErr :=
  let et := eo
  match pyGetL eo 0, pyGetL et 0 with
  | some minO, some minT =>
    let nx := eo.length - 1
    let ny := et.length - 1
    let mat0 : Mat := fun _ _ => 0
    match seekLoopF (2 * eo.length + 2) eo em eb et minO minT nx
        (-1) (-1) thresholdQ thresholdQ with
    | .error e => (mat0, some e)
    | .ok none => (mat0, none)
    | .ok (some (i0, i1, lx, ly)) =>
      match pyGetL eo (i0 + 1), pyGetL eo i0 with
      | some a, some b =>
        scanLoopF (2 * eo.length + 2) eo em eb et nx ny nrows ncols
          i0 i1 0 lx ly (a - b) mat0
      | _, _ => (mat0, some .readOOB)
  | _, _ => (init, some .readOOB)

/-- `_axisdistortion_numba` is `njit(cache=True)` applied to the very
same Python function object (lines 169-171), i.e. the same algorithm. -/
def axisdistortionNumba (eo em eb : List ℚ) (nrows ncols : Nat)
    (init : Mat) : Mat × Option DErr :=
  axisdistortionPython eo em eb nrows ncols init

/-- One destination step of `_calc_rebin_matrix_python` (lines 106-114):
the inner `while edge_old < edge_new and not isclose(edge_new, edge_old)`
loop.  While the condition holds: if `edge_old >= edge_new_prev or
isclose(edge_old, edge_new_prev)`, assign `rebin_matrix[inew-1, iold] =
1.0` (a numpy write, IndexError when out of shape); then `next` the
`enumerate(edges_old)` iterator — `StopIteration` escapes when it is
exhausted, which makes the subsequent `if iold >= nold` guard (the
`RuntimeError("Inconsistent edges (outer)")` site) unreachable.  The
iterator state is the pair `(iold, edgeOld)` plus the list `remOld` of
not-yet-yielded elements. -/
def rebinInnerPy (atol rtol enPrev en : ℚ) (nold nrows ncols inew : Nat) :
    Nat → ℚ → List ℚ → Mat → Mat × Except RErr (Nat × ℚ × List ℚ)
  | iold, edgeOld, remOld, mat =>
    if edgeOld < en ∧ ¬ npisclose en edgeOld atol rtol then
      match (if edgeOld ≥ enPrev ∨ npisclose edgeOld enPrev atol rtol then
               (if inew - 1 < nrows ∧ iold < ncols then
                  .ok (matSet mat (inew - 1) iold 1)
                else .error RErr.indexErr)
             else .ok mat : Except RErr Mat) with
      | .error e => (mat, .error e)
      | .ok mat2 =>
        match remOld with
        | [] => (mat2, .error .stopIter)
        | e2 :: rest =>
          if nold ≤ iold + 1 then (mat2, .error .outerInconsistent)
          else rebinInnerPy atol rtol enPrev en nold nrows ncols inew
            (iold + 1) e2 rest mat2
    else (mat, .ok (iold, edgeOld, remOld))

/-- The `for inew, edge_new in enumerate(edges_new[1:], 1)` loop of
`_calc_rebin_matrix_python` (lines 105-119): run the inner loop, then
require `isclose(edge_new, edge_old)` — otherwise
`RuntimeError("Inconsistent edges (inner)")`.  `edge_new_prev` is read
from `edges_new[0]` before the loop and never reassigned. -/
def rebinOuterPy (atol rtol enPrev : ℚ) (nold nrows ncols : Nat) :
    List ℚ → Nat → Nat → ℚ → List ℚ → Mat → Mat × Option RErr
  | [], _, _, _, _, mat => (mat, none)
  | en :: rest, inew, iold, edgeOld, remOld, mat =>
    match rebinInnerPy atol rtol enPrev en nold nrows ncols inew
        iold edgeOld remOld mat with
    | (mat2, .error e) => (mat2, some e)
    | (mat2, .ok (iold2, edgeOld2, remOld2)) =>
      if ¬ npisclose en edgeOld2 atol rtol then
        (mat2, some .innerInconsistent)
      else rebinOuterPy atol rtol enPrev nold nrows ncols rest (inew + 1)
        iold2 edgeOld2 remOld2 mat2

/-- `_calc_rebin_matrix_python(edges_old, edges_new, rebin_matrix, atol,
rtol)`: two precondition `assert`s comparing the first and last edges
(AssertionError on failure), then the forward merge over
`edges_new[1:]` starting from the first `next` of
`enumerate(edges_old)`. -/
def rebinPython (eo en : List ℚ) (nrows ncols : Nat) (mat0 : Mat)
    (atol rtol : ℚ) : Mat × Option RErr :=
  match pyGetL en 0, pyGetL eo 0 with
  | some n0, some o0 =>
    if o0 ≤ n0 ∨ npisclose n0 o0 atol rtol then
      match pyGetL en (-1), pyGetL eo (-1) with
      | some nL, some oL =>
        if nL ≤ oL ∨ npisclose nL oL atol rtol then
          match eo with
          | [] => (mat0, some .stopIter)
          | e0 :: rest0 =>
            rebinOuterPy atol rtol n0 eo.length nrows ncols
              (en.drop 1) 1 0 e0 rest0 mat0
        else (mat0, some .assertPre)
      | _, _ => (mat0, some .indexErr)
    else (mat0, some .assertPre)
  | _, _ => (mat0, some .indexErr)

/-- Inner loop of `_calc_rebin_matrix_numba` (lines 144-149): identical
to the python variant except that the unreachable guard after `next` is
`assert iold < nold` (AssertionError) instead of the RuntimeError.
The real numba build runs with bounds checking disabled, so the
out-of-shape write has no defined Python-level behaviour; it is marked
with the same `indexErr` token here. -/
def rebinInnerNb (atol rtol enPrev en : ℚ) (nold nrows ncols inew : Nat) :
    Nat → ℚ → List ℚ → Mat → Mat × Except RErr (Nat × ℚ × List ℚ)
  | iold, edgeOld, remOld, mat =>
    if edgeOld < en ∧ ¬ npisclose en edgeOld atol rtol then
      match (if edgeOld ≥ enPrev ∨ npisclose edgeOld enPrev atol rtol then
               (if inew - 1 < nrows ∧ iold < ncols then
                  .ok (matSet mat (inew - 1) iold 1)
                else .error RErr.indexErr)
             else .ok mat : Except RErr Mat) with
      | .error e => (mat, .error e)
      | .ok mat2 =>
        match remOld with
        | [] => (mat2, .error .stopIter)
        | e2 :: rest =>
          if nold ≤ iold + 1 then (mat2, .error .assertOuter)
          else rebinInnerNb atol rtol enPrev en nold nrows ncols inew
            (iold + 1) e2 rest mat2
    else (mat, .ok (iold, edgeOld, remOld))

/-- Outer loop of `_calc_rebin_matrix_numba` (lines 143-154): the final
reconciliation is `assert isclose(edge_new, edge_old, ...)`
(AssertionError) instead of the RuntimeError of the python variant. -/
def rebinOuterNb (atol rtol enPrev : ℚ) (nold nrows ncols : Nat) :
    List ℚ → Nat → Nat → ℚ → List ℚ → Mat → Mat × Option RErr
  | [], _, _, _, _, mat => (mat, none)
  | en :: rest, inew, iold, edgeOld, remOld, mat =>
    match rebinInnerNb atol rtol enPrev en nold nrows ncols inew
        iold edgeOld remOld mat with
    | (mat2, .error e) => (mat2, some e)
    | (mat2, .ok (iold2, edgeOld2, remOld2)) =>
      if ¬ npisclose en edgeOld2 atol rtol then
        (mat2, some .assertInner)
      else rebinOuterNb atol rtol enPrev nold nrows ncols rest (inew + 1)
        iold2 edgeOld2 remOld2 mat2

/-- `_calc_rebin_matrix_numba(edges_old, edges_new, rebin_matrix, atol,
rtol)`: same preconditions and merge as the python variant, with
`assert`-based failures in the loop body. -/
def rebinNumba (eo en : List ℚ) (nrows ncols : Nat) (mat0 : Mat)
    (atol rtol : ℚ) : Mat × Option RErr :=
  match pyGetL en 0, pyGetL eo 0 with
  | some n0, some o0 =>
    if o0 ≤ n0 ∨ npisclose n0 o0 atol rtol then
      match pyGetL en (-1), pyGetL eo (-1) with
      | some nL, some oL =>
        if nL ≤ oL ∨ npisclose nL oL atol rtol then
          match eo with
          | [] => (mat0, some .stopIter)
          | e0 :: rest0 =>
            rebinOuterNb atol rtol n0 eo.length nrows ncols
              (en.drop 1) 1 0 e0 rest0 mat0
        else (mat0, some .assertPre)
      | _, _ => (mat0, some .indexErr)
    else (mat0, some .assertPre)
  | _, _ => (mat0, some .indexErr)

/-! ### Basic lemmas about the embedding primitives -/

theorem matSet_apply (m : Mat) (r c : Nat) (v : ℚ) (r2 c2 : Nat) :
    matSet m r c v r2 c2 = if r2 = r ∧ c2 = c then v else m r2 c2 := rfl

theorem matSet_self (m : Mat) (r c : Nat) (v : ℚ) :
    matSet m r c v r c = v := by simp [matSet_apply]

theorem matSet_other (m : Mat) (r c : Nat) (v : ℚ) (r2 c2 : Nat)
    (h : ¬(r2 = r ∧ c2 = c)) : matSet m r c v r2 c2 = m r2 c2 := by
  simp only [matSet_apply, if_neg h]

theorem pyGetL_some (xs : List ℚ) (i : Int) (h0 : 0 ≤ i)
    (h1 : i < (xs.length : Int)) :
    pyGetL xs i = some (xs.getD i.toNat 0) := by
  unfold pyGetL pyIx
  have : ¬ i < 0 := by omega
  simp only [this, if_false]
  rw [if_pos ⟨h0, h1⟩]

theorem pyGetL_negOne (xs : List ℚ) (h : 1 ≤ xs.length) :
    pyGetL xs (-1) = some (xs.getD (xs.length - 1) 0) := by
  unfold pyGetL pyIx
  have h1 : ((-1 : Int) < 0) := by omega
  simp only [h1, if_true]
  have h2 : (0:Int) ≤ -1 + xs.length ∧ -1 + (xs.length:Int) < xs.length := by
    omega
  rw [if_pos h2]
  have h3 : ((-1 : Int) + xs.length).toNat = xs.length - 1 := by omega
  rw [h3]

theorem pySetM_ok (nrows ncols : Nat) (mat : Mat) (r c : Nat) (v : ℚ)
    (hr : r < nrows) (hc : c < ncols) :
    pySetM nrows ncols mat (r : Int) (c : Int) v =
      .ok (matSet mat r c v) := by
  unfold pySetM pyIx
  have hr2 : ¬ ((r : Int) < 0) := by omega
  have hc2 : ¬ ((c : Int) < 0) := by omega
  simp only [hr2, hc2, if_false]
  rw [if_pos ⟨by omega, by omega, by omega, by omega⟩]
  simp

theorem pySetM_negOne_ok (nrows ncols : Nat) (mat : Mat) (r : Nat) (v : ℚ)
    (hr : r < nrows) (hc : 1 ≤ ncols) :
    pySetM nrows ncols mat (r : Int) (-1) v =
      .ok (matSet mat r (ncols - 1) v) := by
  unfold pySetM pyIx
  have hr2 : ¬ ((r : Int) < 0) := by omega
  have hc2 : ((-1 : Int) < 0) := by omega
  simp only [hr2, hc2, if_false, if_true]
  rw [if_pos ⟨by omega, by omega, by omega, by omega⟩]
  have : ((-1 : Int) + ncols).toNat = ncols - 1 := by omega
  simp [this]

theorem colSum_matSet_same (nr : Nat) (m : Mat) (r c : Nat) (v : ℚ)
    (hr : r < nr) :
    colSum nr (matSet m r c v) c = colSum nr m c - m r c + v := by
  unfold colSum
  rw [← Finset.sum_erase_add _ _ (Finset.mem_range.mpr hr),
    ← Finset.sum_erase_add (Finset.range nr) _ (Finset.mem_range.mpr hr)]
  have h1 : ∀ x ∈ (Finset.range nr).erase r,
      matSet m r c v x c = m x c := by
    intro x hx
    have := Finset.ne_of_mem_erase hx
    exact matSet_other _ _ _ _ _ _ (by tauto)
  rw [Finset.sum_congr rfl h1, matSet_self]
  ring

theorem colSum_matSet_other (nr : Nat) (m : Mat) (r c : Nat) (v : ℚ)
    (c2 : Nat) (h : c2 ≠ c) :
    colSum nr (matSet m r c v) c2 = colSum nr m c2 := by
  unfold colSum
  refine Finset.sum_congr rfl fun x _ => ?_
  exact matSet_other _ _ _ _ _ _ (by tauto)

theorem colSum_eq_zero (nr : Nat) (m : Mat) (c : Nat)
    (h : ∀ r, r < nr → m r c = 0) : colSum nr m c = 0 := by
  unfold colSum
  exact Finset.sum_eq_zero fun r hr => h r (Finset.mem_range.mp hr)

theorem listGetD_lt (xs : List ℚ) (h : List.Pairwise (· < ·) xs)
    (i j : Nat) (hij : i < j) (hj : j < xs.length) :
    xs.getD i 0 < xs.getD j 0 := by
  have hi : i < xs.length := by omega
  rw [xs.getD_eq_getElem 0 hi, xs.getD_eq_getElem 0 hj]
  exact List.pairwise_iff_getElem.mp h i j hi hj hij

theorem listGetD_le (xs : List ℚ) (h : List.Pairwise (· < ·) xs)
    (i j : Nat) (hij : i ≤ j) (hj : j < xs.length) :
    xs.getD i 0 ≤ xs.getD j 0 := by
  rcases Nat.lt_or_ge i j with h2 | h2
  · exact le_of_lt (listGetD_lt xs h i j h2 hj)
  · have : i = j := by omega
    rw [this]

theorem advanceIdxyF_ok_lt (fuel : Nat) (et : List ℚ) (ny : Nat) (ly : ℚ)
    (iy iy2 : Nat) (hlen : ny + 1 = et.length)
    (h : advanceIdxyF fuel et ny ly iy = .ok iy2) : iy2 < ny := by
  induction fuel generalizing iy with
  | zero => simp [advanceIdxyF] at h
  | succ fuel ih =>
    unfold advanceIdxyF at h
    rcases hg : pyGetL et ((iy : Int) + 1) with _ | t
    · rw [hg] at h; simp at h
    · rw [hg] at h
      have hin : (iy : Int) + 1 < et.length := by
        by_contra hcon
        unfold pyGetL pyIx at hg
        have : ¬ ((iy : Int) + 1 < 0) := by omega
        simp only [this, if_false] at hg
        rw [if_neg (by omega)] at hg
        exact Option.noConfusion hg
      simp only at h
      split at h
      · split at h
        · rename_i h1 h2
          exact absurd h2 (by omega)
        · exact ih (iy + 1) h
      · have : iy = iy2 := by
          have := h
          simp at this
          omega
        omega

/-! ### Concrete fixtures -/

/-- `test_sets['test1']` edges of `test_AxisDistortionMatrix.py`. -/
def eoT1 : List ℚ := [1, 2, 3, 4, 5]

/-- `test1` modified edges (`edges_modified`). -/
def emT1 : List ℚ := [4/5, 7/5, 9/5, 7/2, 11/2]

/-- `test1` backward-projected edges (`edges_backward`). -/
def ebT1 : List ℚ := [7/5, 17/5, 19/5, 21/5, 23/5]

/-- The distortion build on the `test1` fixture. -/
def runT1 : Mat × Option DErr := axisdistortionPython eoT1 emT1 ebT1 4 4 zeroM

/-- The fully enumerated `test1` reference matrix of the test file. -/
def fixT1 : List (List ℚ) :=
  [[(2 - 7/5) / 1, (3 - 2) / 1, (17/5 - 3) / 1, 0],
   [0, 0, (19/5 - 17/5) / 1, 0],
   [0, 0, (4 - 19/5) / 1, (21/5 - 4) / 1],
   [0, 0, 0, (23/5 - 21/5) / 1]]

/-- C3: on the `test1` fixture the build returns normally; row 0 of the
4×4 result is `[(2-1.4)/1, (3-2)/1, (3.4-3)/1, 0]`; the full contents
equal the enumerated reference matrix; and the columns fully covered by
the backward-projected destination domain `[1.4, 4.6]` (source bins 1
and 2) sum to exactly 1. -/
theorem distortion_fixture_test1 :
    runT1.2 = none ∧
    (runT1.1 0 0 = (2 - 7/5) / 1 ∧ runT1.1 0 1 = (3 - 2) / 1 ∧
     runT1.1 0 2 = (17/5 - 3) / 1 ∧ runT1.1 0 3 = 0) ∧
    (∀ r, r < 4 → ∀ c, c < 4 → runT1.1 r c = (fixT1.getD r []).getD c 0) ∧
    colSum 4 runT1.1 1 = 1 ∧ colSum 4 runT1.1 2 = 1 := by
  with_unfolding_all decide

/-- C6: the main-scan breakpoint choice.  Whenever all four candidate
reads succeed, the breakpoint comes from axis 0 (with `rightx` the next
original edge and `righty` the next modified edge) exactly when
`edges_original[idxx0+1] < edges_backwards[idxx1+1]` holds strictly, and
otherwise — in particular on exact ties — from axis 1 (with `rightx`
the next backward edge and `righty` the next target edge).  No
tolerance enters this comparison. -/
theorem distortion_tie_break (eo em eb et : List ℚ) (i0 i1 : Int)
    (ro rb rya ryb : ℚ)
    (h1 : pyGetL eo (i0 + 1) = some ro)
    (h2 : pyGetL eb (i1 + 1) = some rb)
    (h3 : pyGetL em (i0 + 1) = some rya)
    (h4 : pyGetL et (i1 + 1) = some ryb) :
    (scanChoice eo em eb et i0 i1 =
      if ro < rb then .ok (0, ro, rya) else .ok (1, rb, ryb)) ∧
    (ro = rb → scanChoice eo em eb et i0 i1 = .ok (1, rb, ryb)) := by
  constructor
  · by_cases hlt : ro < rb
    · simp [scanChoice, h1, h2, h3, h4, hlt]
    · simp [scanChoice, h1, h2, h3, h4, hlt]
  · intro he
    simp [scanChoice, h1, h2, h3, h4, he]

/-- Witness for C6 at an exact tie: `edges_original[1] = 2 =
edges_backwards[0]`, and the choice goes to axis 1 with `righty` taken
from the target axis. -/
theorem distortion_tie_break_witness :
    scanChoice [1, 2] [0, 1] [2, 5] [1, 2] 0 (-1) = .ok (1, 2, 1) := by
  have h := (distortion_tie_break [1, 2] [0, 1] [2, 5] [1, 2] 0 (-1) 2 2 1 1
    (by with_unfolding_all decide) (by with_unfolding_all decide)
    (by with_unfolding_all decide) (by with_unfolding_all decide)).2
  exact h rfl

/-! ### Counterexample inputs -/

/-- Source/target edges of the column-sum counterexample. -/
def eoC1 : List ℚ := [0, 1, 2, 3]

/-- Modified edges of the column-sum counterexample: they start above
the first destination bins, so the destination row cursor runs ahead
and a later backward breakpoint rewrites the same cell. -/
def emC1 : List ℚ := [3/2, 5/2, 13/5, 27/10]

/-- Backward edges of the column-sum counterexample; their range
`[-1/2, 29/10]` covers source bin 0 `[0, 1]` entirely. -/
def ebC1 : List ℚ := [-(1/2), 3/10, 3/5, 29/10]

/-- The distortion build on the column-sum counterexample. -/
def runC1 : Mat × Option DErr := axisdistortionPython eoC1 emC1 ebC1 3 3 zeroM

/-- C1 counterexample: a valid input (three strictly increasing edge
sequences of equal length, 3×3 zeroed matrix) on which the build
returns normally, source bin 0 is fully covered by the backward image
`[-1/2, 29/10]` of the destination domain, all entries lie in `[0,1]`,
and yet column 0 sums to `7/10 < 1`: the assignment
`matrix[idxy, idxx0] = ...` overwrites an earlier fine segment of the
same cell, so a fully covered column can fall short of 1. -/
theorem distortion_colsum_counterexample :
    List.Pairwise (fun a b => a < b) eoC1 ∧
    List.Pairwise (fun a b => a < b) emC1 ∧
    List.Pairwise (fun a b => a < b) ebC1 ∧
    runC1.2 = none ∧
    ebC1.getD 0 0 ≤ eoC1.getD 0 0 ∧ eoC1.getD 1 0 ≤ ebC1.getD 3 0 ∧
    (∀ r, r < 3 → ∀ c, c < 3 → 0 ≤ runC1.1 r c ∧ runC1.1 r c ≤ 1) ∧
    colSum 3 runC1.1 0 = 7/10 := by
  with_unfolding_all decide

/-- Old edges of the rebin partition counterexample: bins 1 and 2 are
tiny and sit within the default absolute tolerance of the last new
edge. -/
def eoC2 : List ℚ := [0, 1 - 3/10^15, 1 - 2/10^15, 1]

/-- New edges of the rebin partition counterexample. -/
def enC2 : List ℚ := [0, 1]

/-- The rebin build on the partition counterexample, at the default
tolerances `atol = 1e-14`, `rtol = 0`. -/
def runC2 : Mat × Option RErr := rebinPython eoC2 enC2 1 3 zeroM (1/10^14) 0

/-- C2 counterexample: valid strictly increasing edges with the new
range inside the old range, the build returns normally, old bin 1
`[1 - 3e-15, 1 - 2e-15]` lies strictly inside `[new[0], new[last]] =
[0, 1]`, and yet its column sums to 0: the merge stops consuming old
edges as soon as `edge_old` is within tolerance of `edge_new`, so bins
within tolerance of the terminal edge are silently dropped. -/
theorem rebin_partition_counterexample :
    List.Pairwise (fun a b => a < b) eoC2 ∧
    List.Pairwise (fun a b => a < b) enC2 ∧
    runC2.2 = none ∧
    enC2.getD 0 0 < eoC2.getD 1 0 ∧ eoC2.getD 2 0 < enC2.getD 1 0 ∧
    colSum 1 runC2.1 1 = 0 := by
  with_unfolding_all decide

/-- Edges for the C5 counterexample: both the backward and the modified
domain lie entirely above `[min(original), max(original)] = [1, 2]`. -/
def eoC5 : List ℚ := [1, 2]

/-- Modified edges, entirely above the original range. -/
def emC5 : List ℚ := [5/2, 13/5]

/-- Backward edges, entirely above the original range. -/
def ebC5 : List ℚ := [14/5, 29/10]

/-- The distortion build on the C5 counterexample. -/
def runC5 : Mat × Option DErr := axisdistortionPython eoC5 emC5 ebC5 1 1 zeroM

/-- C5 counterexample: with both domains entirely outside (above) the
original range, phase 1 does *not* exhaust an axis — `modified[0] ≥
original[0]` satisfies the start condition immediately — and the main
scan then fails with an out-of-bounds read of the destination edges
instead of returning an all-zero matrix. -/
theorem distortion_undershoot_counterexample :
    (∀ v ∈ ebC5, eoC5.getD 1 0 < v) ∧
    (∀ v ∈ emC5, eoC5.getD 1 0 < v) ∧
    runC5.2 = some .readOOB := by
  with_unfolding_all decide

/-- Edges for the C7 counterexample: a strictly increasing but wildly
inconsistent `modified` sequence pushes the fine segment's left
Y-coordinate past the last target edge. -/
def eoC7 : List ℚ := [0, 1, 2, 3]

/-- Modified edges of the C7 counterexample. -/
def emC7 : List ℚ := [0, 100, 200, 300]

/-- Backward edges of the C7 counterexample. -/
def ebC7 : List ℚ := [1/2, 3/2, 5/2, 7/2]

/-- The distortion build on the C7 counterexample. -/
def runC7 : Mat × Option DErr := axisdistortionPython eoC7 emC7 ebC7 3 3 zeroM

/-- C7 counterexample: on a valid input (three strictly increasing
sequences of equal length, 3×3 matrix) the destination-row advance
evaluates `edges_target[idxy + 1]` with `idxy = nbinsy`, an
out-of-bounds read, before the `idxy > nbinsy` break guard can fire:
the build raises IndexError rather than stopping early via break. -/
theorem distortion_oob_read_counterexample :
    List.Pairwise (fun a b => a < b) eoC7 ∧
    List.Pairwise (fun a b => a < b) emC7 ∧
    List.Pairwise (fun a b => a < b) ebC7 ∧
    runC7.2 = some .readOOB := by
  with_unfolding_all decide

/-- Common input of the two rebin modes on which the inner
reconciliation fails: `new = [0, 1/2, 2]` against `old = [0, 1, 2]`. -/
def runC8p : Mat × Option RErr :=
  rebinPython [0, 1, 2] [0, 1/2, 2] 2 2 zeroM (1/10^14) 0

/-- The numba mode on the same input as `runC8p`. -/
def runC8n : Mat × Option RErr :=
  rebinNumba [0, 1, 2] [0, 1/2, 2] 2 2 zeroM (1/10^14) 0

/-- C8 counterexample: on the same misaligned input the python mode
raises `RuntimeError("Inconsistent edges (inner)")` while the numba
mode fails the corresponding `assert` (AssertionError): the two
execution modes fail on the same input but are not indistinguishable
to a caller observing the exception. -/
theorem rebin_mode_divergence_counterexample :
    runC8p.2 = some .innerInconsistent ∧ runC8n.2 = some .assertInner ∧
    runC8p.2 ≠ runC8n.2 := by
  with_unfolding_all decide

/-! ### C4: the outer-inconsistency error is unreachable -/

/-- Through the inner rebin loop, the iterator never yields an index
`≥ nold` when `nold` is the true number of old edges (accounted by
`nold = iold + 1 + remOld.length`), so the `iold >= nold` guard — the
only site raising `RuntimeError("Inconsistent edges (outer)")` — never
fires; on exhaustion the `next` call raises StopIteration first. -/
theorem rebinInnerPy_no_outer (remOld : List ℚ)
    (atol rtol enPrev en : ℚ) (nold nrows ncols inew : Nat) :
    ∀ iold edgeOld mat, nold = iold + 1 + remOld.length →
    (rebinInnerPy atol rtol enPrev en nold nrows ncols inew
        iold edgeOld remOld mat).2 ≠ .error .outerInconsistent ∧
    (∀ i2 e2 r2 m2,
      rebinInnerPy atol rtol enPrev en nold nrows ncols inew
        iold edgeOld remOld mat = (m2, .ok (i2, e2, r2)) →
      nold = i2 + 1 + r2.length) := by
  induction remOld with
  | nil =>
    intro iold edgeOld mat hn
    unfold rebinInnerPy
    by_cases hc : edgeOld < en ∧ ¬ npisclose en edgeOld atol rtol
    · rw [if_pos hc]
      by_cases hg : edgeOld ≥ enPrev ∨ npisclose edgeOld enPrev atol rtol
      · rw [if_pos hg]
        by_cases hb : inew - 1 < nrows ∧ iold < ncols
        · rw [if_pos hb]
          exact ⟨by simp, by intro i2 e2 r2 m2 h; simp at h⟩
        · rw [if_neg hb]
          exact ⟨by simp, by intro i2 e2 r2 m2 h; simp at h⟩
      · rw [if_neg hg]
        exact ⟨by simp, by intro i2 e2 r2 m2 h; simp at h⟩
    · rw [if_neg hc]
      refine ⟨by simp, ?_⟩
      intro i2 e2 r2 m2 h
      simp only [Prod.mk.injEq, Except.ok.injEq, Prod.mk.injEq] at h
      obtain ⟨-, h3, h4, h5⟩ := h
      subst h3; subst h5
      simpa using hn
  | cons e0 rest ih =>
    intro iold edgeOld mat hn
    have hlen : nold = iold + 1 + (rest.length + 1) := by simpa using hn
    have hguard : ¬ (nold ≤ iold + 1) := by omega
    unfold rebinInnerPy
    by_cases hc : edgeOld < en ∧ ¬ npisclose en edgeOld atol rtol
    · rw [if_pos hc]
      by_cases hg : edgeOld ≥ enPrev ∨ npisclose edgeOld enPrev atol rtol
      · rw [if_pos hg]
        by_cases hb : inew - 1 < nrows ∧ iold < ncols
        · rw [if_pos hb]
          simp only [if_neg hguard]
          exact ih (iold + 1) e0 _ (by omega)
        · rw [if_neg hb]
          exact ⟨by simp, by intro i2 e2 r2 m2 h; simp at h⟩
      · rw [if_neg hg]
        simp only [if_neg hguard]
        exact ih (iold + 1) e0 _ (by omega)
    · rw [if_neg hc]
      refine ⟨by simp, ?_⟩
      intro i2 e2 r2 m2 h
      simp only [Prod.mk.injEq, Except.ok.injEq, Prod.mk.injEq] at h
      obtain ⟨-, h3, h4, h5⟩ := h
      subst h3; subst h5
      simpa using hn

/-- The outer rebin loop never surfaces the
`RuntimeError("Inconsistent edges (outer)")`. -/
theorem rebinOuterPy_no_outer (rest : List ℚ)
    (atol rtol enPrev : ℚ) (nold nrows ncols : Nat) :
    ∀ inew iold edgeOld remOld mat, nold = iold + 1 + remOld.length →
    (rebinOuterPy atol rtol enPrev nold nrows ncols rest inew
        iold edgeOld remOld mat).2 ≠ some .outerInconsistent := by
  induction rest with
  | nil =>
    intro inew iold edgeOld remOld mat hn
    simp [rebinOuterPy]
  | cons en rest2 ih =>
    intro inew iold edgeOld remOld mat hn
    unfold rebinOuterPy
    rcases hinner : rebinInnerPy atol rtol enPrev en nold nrows ncols inew
        iold edgeOld remOld mat with ⟨mat2, res⟩
    have hno := rebinInnerPy_no_outer remOld atol rtol enPrev en nold
      nrows ncols inew iold edgeOld mat hn
    rcases res with e | ⟨i2, e2, r2⟩
    · have : e ≠ .outerInconsistent := by
        intro hcon
        apply hno.1
        rw [hinner, hcon]
      simpa using this
    · have hn2 : nold = i2 + 1 + r2.length := hno.2 i2 e2 r2 mat2 hinner
      dsimp only
      by_cases hcl : ¬ npisclose en e2 atol rtol
      · rw [if_pos hcl]
        simp
      · rw [if_neg hcl]
        exact ih (inew + 1) i2 e2 r2 mat2 hn2

/-- The rebin build on `old = [0,1,2]`, `new = [5,6,2]`: the middle new
edges exceed the old range while the checked first/last edges satisfy
the preconditions, so the scan exhausts the old cursor. -/
def runC4 : Mat × Option RErr :=
  rebinPython [0, 1, 2] [5, 6, 2] 2 2 zeroM (1/10^14) 0

/-- C4: when the rebin scan exhausts the old-edge cursor, the build
fails with StopIteration from `next(stepper_old)` — not with
`RuntimeError("Inconsistent edges (outer)")`: the `iold >= nold` guard
sits after the `next` call and can never fire, on any input. -/
theorem rebin_outer_exhaustion_behavior :
    runC4.2 = some .stopIter ∧
    ∀ eo en nrows ncols mat0 atol rtol,
      (rebinPython eo en nrows ncols mat0 atol rtol).2 ≠
        some .outerInconsistent := by
  refine ⟨by with_unfolding_all decide, ?_⟩
  intro eo en nrows ncols mat0 atol rtol
  unfold rebinPython
  rcases h1 : pyGetL en 0 with _ | n0
  · simp
  · rcases h2 : pyGetL eo 0 with _ | o0
    · simp
    · dsimp only
      by_cases h3 : o0 ≤ n0 ∨ npisclose n0 o0 atol rtol
      · rw [if_pos h3]
        rcases h4 : pyGetL en (-1) with _ | nL
        · simp
        · rcases h5 : pyGetL eo (-1) with _ | oL
          · simp
          · dsimp only
            by_cases h6 : nL ≤ oL ∨ npisclose nL oL atol rtol
            · rw [if_pos h6]
              rcases heo : eo with _ | ⟨e0, rest0⟩
              · simp
              · exact rebinOuterPy_no_outer (en.drop 1) atol rtol n0
                  (e0 :: rest0).length nrows ncols 1 0 e0 rest0 mat0
                  (by simp; omega)
            · rw [if_neg h6]
              simp
      · rw [if_neg h3]
        simp

/-! ### C10: frame effects of the two builders -/

/-- Every cell of the buffer after the inner rebin loop is either the
caller-supplied value or `1.0`: the loop performs no other write. -/
theorem rebinInnerPy_cells (remOld : List ℚ)
    (atol rtol enPrev en : ℚ) (nold nrows ncols inew : Nat) :
    ∀ iold edgeOld mat r c,
    (rebinInnerPy atol rtol enPrev en nold nrows ncols inew
        iold edgeOld remOld mat).1 r c = mat r c ∨
    (rebinInnerPy atol rtol enPrev en nold nrows ncols inew
        iold edgeOld remOld mat).1 r c = 1 := by
  induction remOld with
  | nil =>
    intro iold edgeOld mat r c
    unfold rebinInnerPy
    by_cases hc : edgeOld < en ∧ ¬ npisclose en edgeOld atol rtol
    · rw [if_pos hc]
      by_cases hg : edgeOld ≥ enPrev ∨ npisclose edgeOld enPrev atol rtol
      · rw [if_pos hg]
        by_cases hb : inew - 1 < nrows ∧ iold < ncols
        · rw [if_pos hb]
          dsimp only
          by_cases ht : r = inew - 1 ∧ c = iold
          · right; rw [matSet_apply, if_pos ht]
          · left; rw [matSet_apply, if_neg ht]
        · rw [if_neg hb]; left; rfl
      · rw [if_neg hg]; left; rfl
    · rw [if_neg hc]; left; rfl
  | cons e0 rest ih =>
    intro iold edgeOld mat r c
    unfold rebinInnerPy
    by_cases hc : edgeOld < en ∧ ¬ npisclose en edgeOld atol rtol
    · rw [if_pos hc]
      by_cases hg : edgeOld ≥ enPrev ∨ npisclose edgeOld enPrev atol rtol
      · rw [if_pos hg]
        by_cases hb : inew - 1 < nrows ∧ iold < ncols
        · rw [if_pos hb]
          dsimp only
          by_cases hk : nold ≤ iold + 1
          · rw [if_pos hk]
            dsimp only
            by_cases ht : r = inew - 1 ∧ c = iold
            · right; rw [matSet_apply, if_pos ht]
            · left; rw [matSet_apply, if_neg ht]
          · rw [if_neg hk]
            rcases ih (iold + 1) e0 (matSet mat (inew - 1) iold 1) r c with
              h | h
            · rw [h]
              by_cases ht : r = inew - 1 ∧ c = iold
              · right; rw [matSet_apply, if_pos ht]
              · left; rw [matSet_apply, if_neg ht]
            · right; exact h
        · rw [if_neg hb]; left; rfl
      · rw [if_neg hg]
        dsimp only
        by_cases hk : nold ≤ iold + 1
        · rw [if_pos hk]; left; rfl
        · rw [if_neg hk]
          exact ih (iold + 1) e0 mat r c
    · rw [if_neg hc]; left; rfl

/-- Every cell of the buffer after the outer rebin loop is either the
caller-supplied value or `1.0`, on both the success and the failure
path. -/
theorem rebinOuterPy_cells (rest : List ℚ)
    (atol rtol enPrev : ℚ) (nold nrows ncols : Nat) :
    ∀ inew iold edgeOld remOld mat r c,
    (rebinOuterPy atol rtol enPrev nold nrows ncols rest inew
        iold edgeOld remOld mat).1 r c = mat r c ∨
    (rebinOuterPy atol rtol enPrev nold nrows ncols rest inew
        iold edgeOld remOld mat).1 r c = 1 := by
  induction rest with
  | nil => intro inew iold edgeOld remOld mat r c; left; rfl
  | cons en rest2 ih =>
    intro inew iold edgeOld remOld mat r c
    unfold rebinOuterPy
    rcases hinner : rebinInnerPy atol rtol enPrev en nold nrows ncols inew
        iold edgeOld remOld mat with ⟨mat2, res⟩
    have hcell := rebinInnerPy_cells remOld atol rtol enPrev en nold
      nrows ncols inew iold edgeOld mat r c
    rw [hinner] at hcell
    dsimp only at hcell
    rcases res with e | ⟨i2, e2, r2⟩
    · exact hcell
    · dsimp only
      by_cases hcl : ¬ npisclose en e2 atol rtol
      · rw [if_pos hcl]
        exact hcell
      · rw [if_neg hcl]
        rcases ih (inew + 1) i2 e2 r2 mat2 r c with h | h
        · rw [h]; exact hcell
        · right; exact h

/-- C10: the rebin builder never zero-fills its output — on every call,
successful or failing, each cell either keeps exactly the value the
caller supplied or has been set to `1.0` — while the distortion
builder overwrites the whole buffer with zeros up front, so (as soon
as its first edge read succeeds) its result does not depend on the
incoming buffer contents at all. -/
theorem rebin_no_zero_fill_distortion_zero_fills :
    (∀ eo en nrows ncols mat0 atol rtol r c,
      (rebinPython eo en nrows ncols mat0 atol rtol).1 r c = mat0 r c ∨
      (rebinPython eo en nrows ncols mat0 atol rtol).1 r c = 1) ∧
    (∀ eo em eb nrows ncols init init2, 1 ≤ eo.length →
      axisdistortionPython eo em eb nrows ncols init =
        axisdistortionPython eo em eb nrows ncols init2) := by
  constructor
  · intro eo en nrows ncols mat0 atol rtol r c
    unfold rebinPython
    rcases h1 : pyGetL en 0 with _ | n0
    · left; rfl
    · rcases h2 : pyGetL eo 0 with _ | o0
      · left; rfl
      · dsimp only
        by_cases h3 : o0 ≤ n0 ∨ npisclose n0 o0 atol rtol
        · rw [if_pos h3]
          rcases h4 : pyGetL en (-1) with _ | nL
          · left; rfl
          · rcases h5 : pyGetL eo (-1) with _ | oL
            · left; rfl
            · dsimp only
              by_cases h6 : nL ≤ oL ∨ npisclose nL oL atol rtol
              · rw [if_pos h6]
                rcases eo with _ | ⟨e0, rest0⟩
                · left; rfl
                · exact rebinOuterPy_cells (en.drop 1) atol rtol n0
                    (e0 :: rest0).length nrows ncols 1 0 e0 rest0 mat0 r c
              · rw [if_neg h6]; left; rfl
        · rw [if_neg h3]; left; rfl
  · intro eo em eb nrows ncols init init2 hlen
    unfold axisdistortionPython
    dsimp only
    rw [pyGetL_some eo 0 (by omega) (by omega)]

/-- Witness for C10: the distortion result on a small input is the same
whether the caller hands in a zeroed buffer or a buffer full of 7s. -/
theorem rebin_frame_witness :
    axisdistortionPython [1, 2] [1, 2] [1, 2] 1 1 zeroM =
      axisdistortionPython [1, 2] [1, 2] [1, 2] 1 1 (fun _ _ => 7) :=
  rebin_no_zero_fill_distortion_zero_fills.2 [1, 2] [1, 2] [1, 2] 1 1
    zeroM (fun _ _ => 7) (by decide)

/-! ### C9: the linspace grouping fixture -/

/-- Matrix–vector product over the `nc` source columns. -/
def matVec (nc : Nat) (m : Mat) (y : List ℚ) (r : Nat) : ℚ :=
  (Finset.range nc).sum fun j => m r j * y.getD j 0

/-- Summing a two-point indicator row against a vector picks out the
two coordinates. -/
theorem sum_two_indicator (n a b : Nat) (v : Nat → ℚ) (ha : a < n)
    (hb : b < n) (hab : a ≠ b) :
    ((Finset.range n).sum fun j =>
      (if j = a ∨ j = b then (1 : ℚ) else 0) * v j) = v a + v b := by
  have h1 : ∀ j, (if j = a ∨ j = b then (1 : ℚ) else 0) * v j
      = (if j = a then v j else 0) + (if j = b then v j else 0) := by
    intro j
    by_cases h2 : j = a
    · subst h2; simp [hab]
    · by_cases h3 : j = b
      · subst h3; simp [h2]
      · simp [h2, h3]
  rw [Finset.sum_congr rfl fun j _ => h1 j, Finset.sum_add_distrib]
  rw [Finset.sum_ite_eq' (Finset.range n) a v,
    Finset.sum_ite_eq' (Finset.range n) b v]
  rw [if_pos (Finset.mem_range.mpr ha), if_pos (Finset.mem_range.mpr hb)]

/-- `old = linspace(0, 2, 21)` as exact rationals. -/
def eoR : List ℚ := (List.range 21).map fun i => (i : ℚ) / 10

/-- `new = old[::2]`: every second old edge. -/
def enR : List ℚ := (List.range 11).map fun j => (j : ℚ) / 5

/-- The rebin build on the grouping fixture, at the default tolerances. -/
def runR : Mat × Option RErr := rebinPython eoR enR 10 20 zeroM (1/10^14) 0

/-- C9: on `old = linspace(0, 2, 21)`, `new = old[::2]` the rebin build
succeeds, every column of the 10×20 matrix sums to exactly 1, and for
every content vector `y` of length 20 and destination row `i < 10` the
matrix–vector product satisfies `(M y)[i] = y[2i] + y[2i+1]`. -/
theorem rebin_grouping_linspace :
    runR.2 = none ∧
    (∀ j, j < 20 → colSum 10 runR.1 j = 1) ∧
    (∀ y : List ℚ, y.length = 20 → ∀ i, i < 10 →
      matVec 20 runR.1 y i = y.getD (2 * i) 0 + y.getD (2 * i + 1) 0) := by
  refine ⟨by with_unfolding_all decide, by with_unfolding_all decide, ?_⟩
  intro y hy i hi
  have hM : ∀ i2, i2 < 10 → ∀ j, j < 20 →
      runR.1 i2 j = (if j = 2 * i2 ∨ j = 2 * i2 + 1 then (1 : ℚ) else 0) := by
    with_unfolding_all decide
  unfold matVec
  rw [Finset.sum_congr rfl fun j hj => by
    rw [hM i hi j (Finset.mem_range.mp hj)]]
  exact sum_two_indicator 20 (2 * i) (2 * i + 1) (fun j => y.getD j 0)
    (by omega) (by omega) (by omega)

/-- A concrete content vector of length 20. -/
def yR : List ℚ :=
  [0, 1, 2, 3, 4, 5, 6, 7, 8, 9, 10, 11, 12, 13, 14, 15, 16, 17, 18, 19]

/-- Witness for C9 at the content vector `y = [0, 1, ..., 19]` and
destination row 3: the product entry equals `y[6] + y[7]`. -/
theorem rebin_grouping_linspace_witness :
    matVec 20 runR.1 yR 3 = yR.getD 6 0 + yR.getD 7 0 :=
  rebin_grouping_linspace.2.2 yR rfl 3 (by omega)

/-! ### C8: equivalence of the python and numba modes -/

/-- Renaming of python-mode error kinds into numba-mode error kinds:
the two inconsistency RuntimeErrors become the corresponding
AssertionErrors; everything else is shared. -/
def rerrMap : RErr → RErr
  | .innerInconsistent => .assertInner
  | .outerInconsistent => .assertOuter
  | e => e

/-- The two inner loops are identical up to the error renaming. -/
theorem rebinInnerNb_eq (remOld : List ℚ)
    (atol rtol enPrev en : ℚ) (nold nrows ncols inew : Nat) :
    ∀ iold edgeOld mat,
    rebinInnerNb atol rtol enPrev en nold nrows ncols inew
        iold edgeOld remOld mat =
    ((rebinInnerPy atol rtol enPrev en nold nrows ncols inew
        iold edgeOld remOld mat).1,
     (rebinInnerPy atol rtol enPrev en nold nrows ncols inew
        iold edgeOld remOld mat).2.mapError rerrMap) := by
  induction remOld with
  | nil =>
    intro iold edgeOld mat
    unfold rebinInnerNb rebinInnerPy
    by_cases hc : edgeOld < en ∧ ¬ npisclose en edgeOld atol rtol
    · simp only [if_pos hc]
      by_cases hg : edgeOld ≥ enPrev ∨ npisclose edgeOld enPrev atol rtol
      · simp only [if_pos hg]
        by_cases hb : inew - 1 < nrows ∧ iold < ncols
        · simp only [if_pos hb]; rfl
        · simp only [if_neg hb]; rfl
      · simp only [if_neg hg]; rfl
    · simp only [if_neg hc]; rfl
  | cons e0 rest ih =>
    intro iold edgeOld mat
    unfold rebinInnerNb rebinInnerPy
    by_cases hc : edgeOld < en ∧ ¬ npisclose en edgeOld atol rtol
    · simp only [if_pos hc]
      by_cases hg : edgeOld ≥ enPrev ∨ npisclose edgeOld enPrev atol rtol
      · simp only [if_pos hg]
        by_cases hb : inew - 1 < nrows ∧ iold < ncols
        · simp only [if_pos hb]
          by_cases hk : nold ≤ iold + 1
          · simp only [if_pos hk]; rfl
          · simp only [if_neg hk]
            exact ih (iold + 1) e0 _
        · simp only [if_neg hb]; rfl
      · simp only [if_neg hg]
        by_cases hk : nold ≤ iold + 1
        · simp only [if_pos hk]; rfl
        · simp only [if_neg hk]
          exact ih (iold + 1) e0 mat
    · simp only [if_neg hc]; rfl

/-- The two outer loops are identical up to the error renaming. -/
theorem rebinOuterNb_eq (rest : List ℚ)
    (atol rtol enPrev : ℚ) (nold nrows ncols : Nat) :
    ∀ inew iold edgeOld remOld mat,
    rebinOuterNb atol rtol enPrev nold nrows ncols rest inew
        iold edgeOld remOld mat =
    ((rebinOuterPy atol rtol enPrev nold nrows ncols rest inew
        iold edgeOld remOld mat).1,
     (rebinOuterPy atol rtol enPrev nold nrows ncols rest inew
        iold edgeOld remOld mat).2.map rerrMap) := by
  induction rest with
  | nil => intro inew iold edgeOld remOld mat; rfl
  | cons en rest2 ih =>
    intro inew iold edgeOld remOld mat
    unfold rebinOuterNb rebinOuterPy
    rw [rebinInnerNb_eq remOld atol rtol enPrev en nold nrows ncols inew
      iold edgeOld mat]
    rcases hinner : rebinInnerPy atol rtol enPrev en nold nrows ncols inew
        iold edgeOld remOld mat with ⟨mat2, res⟩
    rcases res with e | ⟨i2, e2, r2⟩
    · rfl
    · dsimp only [Except.mapError]
      by_cases hcl : ¬ npisclose en e2 atol rtol
      · simp only [if_pos hcl]; rfl
      · simp only [if_neg hcl]
        exact ih (inew + 1) i2 e2 r2 mat2

/-- C8 (amended): the two execution modes of each builder run the same
algorithm.  The distortion numba variant is the same function; the two
rebin variants produce the *same* buffer on every input — in
particular identical matrices on success — and fail on exactly the
same inputs with the same tolerance semantics, differing only in the
kind of exception at the two inconsistency sites (RuntimeError in the
python mode, AssertionError in the numba mode). -/
theorem builder_modes_equivalent :
    (∀ eo em eb nrows ncols init,
      axisdistortionNumba eo em eb nrows ncols init =
        axisdistortionPython eo em eb nrows ncols init) ∧
    (∀ eo en nrows ncols mat0 atol rtol,
      rebinNumba eo en nrows ncols mat0 atol rtol =
        ((rebinPython eo en nrows ncols mat0 atol rtol).1,
         (rebinPython eo en nrows ncols mat0 atol rtol).2.map rerrMap)) := by
  constructor
  · intro eo em eb nrows ncols init
    rfl
  · intro eo en nrows ncols mat0 atol rtol
    unfold rebinNumba rebinPython
    rcases h1 : pyGetL en 0 with _ | n0
    · rfl
    · rcases h2 : pyGetL eo 0 with _ | o0
      · rfl
      · dsimp only
        by_cases h3 : o0 ≤ n0 ∨ npisclose n0 o0 atol rtol
        · simp only [if_pos h3]
          rcases h4 : pyGetL en (-1) with _ | nL
          · rfl
          · rcases h5 : pyGetL eo (-1) with _ | oL
            · rfl
            · dsimp only
              by_cases h6 : nL ≤ oL ∨ npisclose nL oL atol rtol
              · simp only [if_pos h6]
                rcases eo with _ | ⟨e0, rest0⟩
                · rfl
                · exact rebinOuterNb_eq (en.drop 1) atol rtol n0
                    (e0 :: rest0).length nrows ncols 1 0 e0 rest0 mat0
              · simp only [if_neg h6]; rfl
        · simp only [if_neg h3]; rfl

/-! ### C5: undershoot configurations leave the matrix untouched -/

theorem pyGetL_zero (xs : List ℚ) (h : 1 ≤ xs.length) :
    pyGetL xs 0 = some (xs.getD 0 0) := by
  rw [pyGetL_some xs 0 (by omega) (by omega)]
  rfl

/-- Combo "both heads below": when both `modified[0]` and
`backwards[0]` lie below `original[0]`, neither axis can ever satisfy
the start condition, so phase 1 runs until an index is exhausted and
reports the undershoot return (`none`). -/
theorem seekLoopF_below_below (eo em eb : List ℚ) (nx : Nat)
    (hlem : em.length = eo.length) (hleb : eb.length = eo.length)
    (hlen : 1 ≤ eo.length) (hnx : nx = eo.length - 1)
    (hm : em.getD 0 0 < eo.getD 0 0) (hb : eb.getD 0 0 < eo.getD 0 0) :
    ∀ fuel (i0 i1 : Int) (lx ly : ℚ),
    -1 ≤ i0 → i0 < nx → -1 ≤ i1 → i1 < nx →
    (lx = thresholdQ ∨ ly = em.getD 0 0 ∨ lx = eb.getD 0 0) →
    ((nx : Int) - i0).toNat + ((nx : Int) - i1).toNat ≤ fuel →
    seekLoopF fuel eo em eb eo (eo.getD 0 0) (eo.getD 0 0) nx i0 i1 lx ly =
      .ok none := by
  intro fuel
  induction fuel with
  | zero =>
    intro i0 i1 lx ly h0 h1 h2 h3 hst hfuel
    exact absurd hfuel (by omega)
  | succ fuel ih =>
    intro i0 i1 lx ly h0 h1 h2 h3 hst hfuel
    have hcond : lx ≤ thresholdQ ∨ lx < eo.getD 0 0 ∨ ly < eo.getD 0 0 := by
      rcases hst with h | h | h
      · left; rw [h]
      · right; right; rw [h]; exact hm
      · right; left; rw [h]; exact hb
    unfold seekLoopF
    rw [if_pos hcond]
    rw [pyGetL_some eo (i0 + 1) (by omega) (by omega)]
    rw [pyGetL_some eb (i1 + 1) (by omega) (by omega)]
    dsimp only
    by_cases hab : eo.getD (i0 + 1).toNat 0 < eb.getD (i1 + 1).toNat 0
    · rw [if_pos hab, pyGetL_zero eo hlen, pyGetL_zero em (by omega)]
      dsimp only
      by_cases hstop : (nx : Int) ≤ i0 + 1
      · rw [if_pos hstop]
      · rw [if_neg hstop]
        exact ih (i0 + 1) i1 (eo.getD 0 0) (em.getD 0 0) (by omega)
          (by omega) h2 h3 (Or.inr (Or.inl rfl)) (by omega)
    · rw [if_neg hab, pyGetL_zero eb (by omega), pyGetL_zero eo hlen]
      dsimp only
      by_cases hstop : (nx : Int) ≤ i1 + 1
      · rw [if_pos hstop]
      · rw [if_neg hstop]
        exact ih i0 (i1 + 1) (eb.getD 0 0) (eo.getD 0 0) h0 h1 (by omega)
          (by omega) (Or.inr (Or.inr rfl)) (by omega)

/-- Combo "backward entirely below": every backward edge lies below
`original[0]`, so `isx` is always false, the axis-1 values never meet
the start condition, and `idxx1` is exhausted. -/
theorem seekLoopF_backward_below (eo em eb : List ℚ) (nx : Nat)
    (hlem : em.length = eo.length) (hleb : eb.length = eo.length)
    (hlen : 1 ≤ eo.length) (hnx : nx = eo.length - 1)
    (hb : ∀ k, k < eb.length → eb.getD k 0 < eo.getD 0 0) :
    ∀ fuel (i1 : Int) (lx ly : ℚ),
    -1 ≤ i1 → i1 < nx →
    (lx = thresholdQ ∨ lx = eb.getD 0 0) →
    ((nx : Int) - i1).toNat ≤ fuel →
    seekLoopF fuel eo em eb eo (eo.getD 0 0) (eo.getD 0 0) nx (-1) i1 lx ly =
      .ok none := by
  intro fuel
  induction fuel with
  | zero =>
    intro i1 lx ly h2 h3 hst hfuel
    exact absurd hfuel (by omega)
  | succ fuel ih =>
    intro i1 lx ly h2 h3 hst hfuel
    have hb0 : eb.getD 0 0 < eo.getD 0 0 := hb 0 (by omega)
    have hcond : lx ≤ thresholdQ ∨ lx < eo.getD 0 0 ∨ ly < eo.getD 0 0 := by
      rcases hst with h | h
      · left; rw [h]
      · right; left; rw [h]; exact hb0
    unfold seekLoopF
    rw [if_pos hcond]
    rw [pyGetL_some eo ((-1) + 1) (by omega) (by omega)]
    rw [pyGetL_some eb (i1 + 1) (by omega) (by omega)]
    dsimp only
    have hab : ¬ (eo.getD ((-1 : Int) + 1).toNat 0 <
        eb.getD (i1 + 1).toNat 0) := by
      have h5 : eb.getD (i1 + 1).toNat 0 < eo.getD 0 0 :=
        hb (i1 + 1).toNat (by omega)
      have h6 : ((-1 : Int) + 1).toNat = 0 := by omega
      rw [h6]
      exact not_lt.mpr (le_of_lt h5)
    rw [if_neg hab, pyGetL_zero eb (by omega), pyGetL_zero eo hlen]
    dsimp only
    by_cases hstop : (nx : Int) ≤ i1 + 1
    · rw [if_pos hstop]
    · rw [if_neg hstop]
      exact ih (i1 + 1) (eb.getD 0 0) (eo.getD 0 0) (by omega) (by omega)
        (Or.inr rfl) (by omega)

/-- Combo "modified entirely below, backward entirely above": `isx` is
always true, the axis-0 values never meet the start condition, and
`idxx0` is exhausted. -/
theorem seekLoopF_modified_below (eo em eb : List ℚ) (nx : Nat)
    (hlem : em.length = eo.length) (hleb : eb.length = eo.length)
    (hlen : 1 ≤ eo.length) (hnx : nx = eo.length - 1)
    (heo : List.Pairwise (fun a b => a < b) eo)
    (hm : ∀ k, k < em.length → em.getD k 0 < eo.getD 0 0)
    (hb : ∀ k, k < eb.length → eo.getD (eo.length - 1) 0 < eb.getD k 0) :
    ∀ fuel (i0 : Int) (lx ly : ℚ),
    -1 ≤ i0 → i0 < nx →
    (lx = thresholdQ ∧ ly = thresholdQ ∨ ly = em.getD 0 0) →
    ((nx : Int) - i0).toNat ≤ fuel →
    seekLoopF fuel eo em eb eo (eo.getD 0 0) (eo.getD 0 0) nx i0 (-1) lx ly =
      .ok none := by
  intro fuel
  induction fuel with
  | zero =>
    intro i0 lx ly h0 h1 hst hfuel
    exact absurd hfuel (by omega)
  | succ fuel ih =>
    intro i0 lx ly h0 h1 hst hfuel
    have hm0 : em.getD 0 0 < eo.getD 0 0 := hm 0 (by omega)
    have hcond : lx ≤ thresholdQ ∨ lx < eo.getD 0 0 ∨ ly < eo.getD 0 0 := by
      rcases hst with ⟨h, -⟩ | h
      · left; rw [h]
      · right; right; rw [h]; exact hm0
    unfold seekLoopF
    rw [if_pos hcond]
    rw [pyGetL_some eo (i0 + 1) (by omega) (by omega)]
    rw [pyGetL_some eb ((-1) + 1) (by omega) (by omega)]
    dsimp only
    have hab : eo.getD (i0 + 1).toNat 0 < eb.getD ((-1 : Int) + 1).toNat 0 := by
      have h5 : eo.getD (i0 + 1).toNat 0 ≤ eo.getD (eo.length - 1) 0 :=
        listGetD_le eo heo (i0 + 1).toNat (eo.length - 1) (by omega) (by omega)
      have h6 : ((-1 : Int) + 1).toNat = 0 := by omega
      rw [h6]
      have h7 : eo.getD (eo.length - 1) 0 < eb.getD 0 0 := hb 0 (by omega)
      exact lt_of_le_of_lt h5 h7
    rw [if_pos hab, pyGetL_zero eo hlen, pyGetL_zero em (by omega)]
    dsimp only
    by_cases hstop : (nx : Int) ≤ i0 + 1
    · rw [if_pos hstop]
    · rw [if_neg hstop]
      exact ih (i0 + 1) (eo.getD 0 0) (em.getD 0 0) (by omega) (by omega)
        (Or.inr rfl) (by omega)

/-- C5 (amended): whenever the backward and modified domains never
reach the overlap region from below — both heads below
`min(original)`, or the whole backward domain below `min(original)`,
or the whole modified domain below `min(original)` with the backward
domain above `max(original)` — phase 1 exhausts an axis index and the
build returns normally with the matrix all-zero.  (When both domains
lie entirely *above* the original range, phase 1 exits instead and the
scan fails with an out-of-bounds read:
`distortion_undershoot_counterexample`.) -/
theorem distortion_undershoot_all_zero (eo em eb : List ℚ)
    (nrows ncols : Nat) (init : Mat)
    (hlem : em.length = eo.length) (hleb : eb.length = eo.length)
    (hlen : 1 ≤ eo.length)
    (heo : List.Pairwise (fun a b => a < b) eo)
    (hcase :
      (em.getD 0 0 < eo.getD 0 0 ∧ eb.getD 0 0 < eo.getD 0 0) ∨
      (∀ k, k < eb.length → eb.getD k 0 < eo.getD 0 0) ∨
      ((∀ k, k < em.length → em.getD k 0 < eo.getD 0 0) ∧
       (∀ k, k < eb.length → eo.getD (eo.length - 1) 0 < eb.getD k 0))) :
    axisdistortionPython eo em eb nrows ncols init = (zeroM, none) := by
  unfold axisdistortionPython
  dsimp only
  rw [pyGetL_zero eo hlen]
  dsimp only
  have hseek : seekLoopF (2 * eo.length + 2) eo em eb eo (eo.getD 0 0)
      (eo.getD 0 0) (eo.length - 1) (-1) (-1) thresholdQ thresholdQ =
      .ok none := by
    rcases hcase with ⟨hm, hb⟩ | hb | ⟨hm, hb⟩
    · exact seekLoopF_below_below eo em eb (eo.length - 1) hlem hleb hlen
        rfl hm hb (2 * eo.length + 2) (-1) (-1) thresholdQ thresholdQ
        (by omega) (by omega) (by omega) (by omega) (Or.inl rfl) (by omega)
    · exact seekLoopF_backward_below eo em eb (eo.length - 1) hlem hleb hlen
        rfl hb (2 * eo.length + 2) (-1) thresholdQ thresholdQ
        (by omega) (by omega) (Or.inl rfl) (by omega)
    · exact seekLoopF_modified_below eo em eb (eo.length - 1) hlem hleb hlen
        rfl heo hm hb (2 * eo.length + 2) (-1) thresholdQ thresholdQ
        (by omega) (by omega) (Or.inl ⟨rfl, rfl⟩) (by omega)
  rw [hseek]
  rfl

/-- Witness for C5 (amended), on the `test3_minimal5` fixture shape:
backward edges entirely below the original range give the all-zero
result with a normal return. -/
theorem distortion_undershoot_witness :
    axisdistortionPython [1, 2] [21/10, 12/5] [4/5, 9/10] 1 1 zeroM =
      (zeroM, none) :=
  distortion_undershoot_all_zero [1, 2] [21/10, 12/5] [4/5, 9/10] 1 1 zeroM
    rfl rfl (by decide) (by with_unfolding_all decide)
    (Or.inr (Or.inl (by with_unfolding_all decide)))

/-! ### C1/C7: invariants of the main scan -/

/-- The destination-row advance can only fail with a read error or by
running out of fuel; it performs no writes. -/
theorem advanceIdxyF_err (fuel : Nat) (et : List ℚ) (ny : Nat) (ly : ℚ) :
    ∀ iy e, advanceIdxyF fuel et ny ly iy = .error e →
    e = .readOOB ∨ e = .fuelOut := by
  induction fuel with
  | zero =>
    intro iy e h
    simp [advanceIdxyF] at h
    simp [h]
  | succ fuel ih =>
    intro iy e h
    unfold advanceIdxyF at h
    rcases hg : pyGetL et ((iy : Int) + 1) with _ | t
    · rw [hg] at h
      simp at h
      simp [h]
    · rw [hg] at h
      dsimp only at h
      split at h
      · split at h
        · simp at h
        · exact ih (iy + 1) e h
      · simp at h

/-- Evaluation of the breakpoint choice under valid cursor bounds, with
the target axis aliased to the original axis. -/
theorem scanChoice_eval (eo em eb : List ℚ) (i0 i1 : Int)
    (hlem : em.length = eo.length) (hleb : eb.length = eo.length)
    (h0 : -1 ≤ i0) (h1 : i0 + 1 < (eo.length : Int))
    (h2 : -1 ≤ i1) (h3 : i1 + 1 < (eo.length : Int)) :
    scanChoice eo em eb eo i0 i1 =
      if eo.getD (i0 + 1).toNat 0 < eb.getD (i1 + 1).toNat 0 then
        .ok (0, eo.getD (i0 + 1).toNat 0, em.getD (i0 + 1).toNat 0)
      else
        .ok (1, eb.getD (i1 + 1).toNat 0, eo.getD (i1 + 1).toNat 0) := by
  unfold scanChoice
  rw [pyGetL_some eo (i0 + 1) (by omega) (by omega)]
  rw [pyGetL_some eb (i1 + 1) (by omega) (by omega)]
  dsimp only
  by_cases hab : eo.getD (i0 + 1).toNat 0 < eb.getD (i1 + 1).toNat 0
  · rw [if_pos hab, if_pos hab,
      pyGetL_some em (i0 + 1) (by omega) (by omega)]
  · rw [if_neg hab, if_neg hab,
      pyGetL_some eo (i1 + 1) (by omega) (by omega)]

/-- Axis-0 start values fail the phase-1 exit condition. -/
def seekAfail (eo em : List ℚ) : Prop :=
  em.getD 0 0 < eo.getD 0 0 ∨ eo.getD 0 0 ≤ thresholdQ

/-- Axis-1 start values fail the phase-1 exit condition. -/
def seekBfail (eo eb : List ℚ) : Prop :=
  eb.getD 0 0 < eo.getD 0 0 ∨ eb.getD 0 0 ≤ thresholdQ
/-- Exit analysis of phase 1: from any reachable state, if the seek
loop hands a start state to the main scan, that state satisfies the
scan entry invariant: either `idxx0 ≥ 0` with `leftx` pinched between
the edges of source bin `idxx0` and not beyond the next backward edge,
or the degenerate `idxx0 = -1` start with `backwards[0] = original[0]`. -/
theorem seekLoopF_exit (eo em eb : List ℚ) (nx : Nat)
    (hlem : em.length = eo.length) (hleb : eb.length = eo.length)
    (hnx : nx + 1 = eo.length) (hnx1 : 1 ≤ nx)
    (heo : List.Pairwise (fun a b => a < b) eo)
    (heb : List.Pairwise (fun a b => a < b) eb) :
    ∀ fuel (i0 i1 : Int) (lx ly : ℚ) (i0x i1x : Int) (lxx lyx : ℚ),
    -1 ≤ i0 → i0 < nx → -1 ≤ i1 → i1 < nx →
    (0 ≤ i0 → eo.getD i0.toNat 0 < eb.getD (i1 + 1).toNat 0) →
    (0 ≤ i1 → eb.getD i1.toNat 0 ≤ eo.getD (i0 + 1).toNat 0) →
    (0 ≤ i0 → 0 ≤ i1 → seekBfail eo eb ∨ eo.getD i0.toNat 0 < eb.getD 0 0) →
    ((i0 = -1 ∧ i1 = -1 ∧ lx = thresholdQ ∧ ly = thresholdQ) ∨
     (0 ≤ i0 ∧ lx = eo.getD 0 0 ∧ ly = em.getD 0 0 ∧
      (1 ≤ i0 → seekAfail eo em) ∧ (0 ≤ i1 → seekBfail eo eb)) ∨
     (0 ≤ i1 ∧ lx = eb.getD 0 0 ∧ ly = eo.getD 0 0 ∧
      (1 ≤ i1 → seekBfail eo eb) ∧ (0 ≤ i0 → seekAfail eo em))) →
    seekLoopF fuel eo em eb eo (eo.getD 0 0) (eo.getD 0 0) nx i0 i1 lx ly =
      .ok (some (i0x, i1x, lxx, lyx)) →
    (-1 ≤ i0x ∧ i0x < nx ∧ -1 ≤ i1x ∧ i1x < nx ∧
     ((0 ≤ i0x ∧ eo.getD i0x.toNat 0 ≤ lxx ∧
       lxx ≤ eo.getD (i0x.toNat + 1) 0 ∧
       lxx ≤ eb.getD (i1x + 1).toNat 0) ∨
      (i0x = -1 ∧ i1x = 0 ∧ lxx = eo.getD 0 0 ∧
       eb.getD 0 0 = eo.getD 0 0))) := by
  intro fuel
  induction fuel with
  | zero =>
    intro i0 i1 lx ly i0x i1x lxx lyx h0 h1 h2 h3 hA2 hB2 hA3 hL hrun
    simp [seekLoopF] at hrun
  | succ fuel ih =>
    intro i0 i1 lx ly i0x i1x lxx lyx h0 h1 h2 h3 hA2 hB2 hA3 hL hrun
    unfold seekLoopF at hrun
    by_cases hcond : lx ≤ thresholdQ ∨ lx < eo.getD 0 0 ∨ ly < eo.getD 0 0
    · -- the loop iterates once more
      rw [if_pos hcond] at hrun
      rw [pyGetL_some eo (i0 + 1) (by omega) (by omega)] at hrun
      rw [pyGetL_some eb (i1 + 1) (by omega) (by omega)] at hrun
      dsimp only at hrun
      have hAf : 0 ≤ i0 → seekAfail eo em := by
        intro hi0
        rcases hL with ⟨hc, -⟩ | ⟨-, hlx, hly, hAf2, -⟩ | ⟨-, -, -, -, hAf2⟩
        · omega
        · rcases hcond with hc | hc | hc
          · right; rw [← hlx]; exact hc
          · exact absurd hc (by rw [hlx]; exact lt_irrefl _)
          · left; rw [← hly]; exact hc
        · exact hAf2 hi0
      have hBf : 0 ≤ i1 → seekBfail eo eb := by
        intro hi1
        rcases hL with ⟨-, hc, -⟩ | ⟨-, -, -, -, hBf2⟩ |
          ⟨-, hlx, hly, hBf2, -⟩
        · omega
        · exact hBf2 hi1
        · rcases hcond with hc | hc | hc
          · right; rw [← hlx]; exact hc
          · left; rw [← hlx]; exact hc
          · exact absurd hc (by rw [hly]; exact lt_irrefl _)
      by_cases hab : eo.getD (i0 + 1).toNat 0 < eb.getD (i1 + 1).toNat 0
      · -- axis-0 advance
        rw [if_pos hab, pyGetL_zero eo (by omega),
          pyGetL_zero em (by omega)] at hrun
        dsimp only at hrun
        by_cases hstop : (nx : Int) ≤ i0 + 1
        · rw [if_pos hstop] at hrun
          simp at hrun
        · rw [if_neg hstop] at hrun
          refine ih (i0 + 1) i1 (eo.getD 0 0) (em.getD 0 0) i0x i1x lxx lyx
            (by omega) (by omega) h2 h3 ?_ ?_ ?_ ?_ hrun
          · intro _
            exact hab
          · intro hi1
            have h5 := hB2 hi1
            have h6 : eo.getD (i0 + 1).toNat 0 ≤
                eo.getD (i0 + 1 + 1).toNat 0 :=
              listGetD_le eo heo (i0 + 1).toNat (i0 + 1 + 1).toNat
                (by omega) (by omega)
            exact le_trans h5 h6
          · intro _ hi1
            left
            exact hBf hi1
          · right; left
            exact ⟨by omega, rfl, rfl, fun h => hAf (by omega), hBf⟩
      · -- axis-1 advance
        rw [if_neg hab, pyGetL_zero eb (by omega),
          pyGetL_zero eo (by omega)] at hrun
        dsimp only at hrun
        by_cases hstop : (nx : Int) ≤ i1 + 1
        · rw [if_pos hstop] at hrun
          simp at hrun
        · rw [if_neg hstop] at hrun
          refine ih i0 (i1 + 1) (eb.getD 0 0) (eo.getD 0 0) i0x i1x lxx lyx
            h0 h1 (by omega) (by omega) ?_ ?_ ?_ ?_ hrun
          · intro hi0
            have h5 := hA2 hi0
            have h6 : eb.getD (i1 + 1).toNat 0 ≤
                eb.getD (i1 + 1 + 1).toNat 0 :=
              listGetD_le eb heb (i1 + 1).toNat (i1 + 1 + 1).toNat
                (by omega) (by omega)
            exact lt_of_lt_of_le h5 h6
          · intro _
            exact le_of_not_lt hab
          · intro hi0 _
            rcases Int.lt_or_le i1 0 with hi1 | hi1
            · right
              have h5 := hA2 hi0
              have h8 : (i1 + 1).toNat = 0 := by omega
              rw [h8] at h5
              exact h5
            · exact hA3 hi0 hi1
          · right; right
            exact ⟨by omega, rfl, rfl, fun h => hBf (by omega), hAf⟩
    · -- exit: the state is handed to the main scan
      rw [if_neg hcond] at hrun
      obtain ⟨rfl, rfl, rfl, rfl⟩ : i0 = i0x ∧ i1 = i1x ∧ lx = lxx ∧
          ly = lyx := by simpa using hrun
      push_neg at hcond
      obtain ⟨hth, hmin, hmint⟩ := hcond
      refine ⟨h0, h1, h2, h3, ?_⟩
      rcases hL with ⟨-, -, hlx, -⟩ | ⟨hi0, hlx, hly, hAf2, -⟩ |
        ⟨hi1, hlx, hly, hBf2, -⟩
      · rw [hlx] at hth
        exact absurd hth (lt_irrefl _)
      · -- exit from an axis-0 state: i0 = 0
        have hi00 : i0 = 0 := by
          by_contra hne
          have h5 : 1 ≤ i0 := by omega
          rcases hAf2 h5 with h6 | h6
          · rw [hly] at hmint
            exact absurd h6 (not_lt.mpr hmint)
          · rw [hlx] at hth
            exact absurd h6 (not_le.mpr hth)
        left
        subst hi00
        refine ⟨le_refl 0, hlx.ge, ?_, ?_⟩
        · rw [hlx]
          exact le_of_lt (listGetD_lt eo heo 0 1 (by omega) (by omega))
        · rw [hlx]
          exact le_of_lt (hA2 (le_refl 0))
      · -- exit from an axis-1 state: i1 = 0
        have hi10 : i1 = 0 := by
          by_contra hne
          have h5 : 1 ≤ i1 := by omega
          rcases hBf2 h5 with h6 | h6
          · rw [hlx] at hmin
            exact absurd h6 (not_lt.mpr hmin)
          · rw [hlx] at hth
            exact absurd h6 (not_le.mpr hth)
        subst hi10
        rcases Int.lt_or_le i0 0 with hi0 | hi0
        · -- no axis-0 step was ever taken
          have hi0m : i0 = -1 := by omega
          right
          have h5 := hB2 (le_refl 0)
          have h8 : (i0 + 1).toNat = 0 := by omega
          rw [h8] at h5
          have h9 : eb.getD 0 0 = eo.getD 0 0 :=
            le_antisymm h5 (by rw [← hlx]; exact hmin)
          exact ⟨hi0m, rfl, by rw [hlx, h9], h9⟩
        · -- the last axis-0 step was taken before any axis-1 step
          left
          have h6 : eo.getD i0.toNat 0 < eb.getD 0 0 := by
            rcases hA3 hi0 (le_refl 0) with h7 | h7
            · exfalso
              rcases h7 with h8 | h8
              · rw [hlx] at hmin
                exact absurd h8 (not_lt.mpr hmin)
              · rw [hlx] at hth
                exact absurd h8 (not_le.mpr hth)
            · exact h7
          refine ⟨hi0, by rw [hlx]; exact le_of_lt h6, ?_, ?_⟩
          · rw [hlx]
            have h7 := hB2 (le_refl 0)
            have h9 : (i0 + 1).toNat = i0.toNat + 1 := by omega
            rw [h9] at h7
            exact h7
          · rw [hlx]
            exact le_of_lt (listGetD_lt eb heb 0 1 (by omega) (by omega))

/-- After one in-bounds write the entry bounds persist. -/
theorem matSet_entries (nx : Nat) (mat : Mat) (iy2 k : Nat) (v : ℚ)
    (hv0 : 0 ≤ v) (hv1 : v ≤ 1)
    (hM1 : ∀ r c, r < nx → c < nx → 0 ≤ mat r c ∧ mat r c ≤ 1) :
    ∀ r c, r < nx → c < nx →
      0 ≤ matSet mat iy2 k v r c ∧ matSet mat iy2 k v r c ≤ 1 := by
  intro r c hr hc
  by_cases ht : r = iy2 ∧ c = k
  · rw [matSet_apply, if_pos ht]
    exact ⟨hv0, hv1⟩
  · rw [matSet_apply, if_neg ht]
    exact hM1 r c hr hc

/-- A fraction of a sub-segment of a bin lies in `[0, 1]`. -/
theorem segment_frac_bounds (e1 e2 lx rx : ℚ) (hW : 0 < e2 - e1)
    (hlx : e1 ≤ lx) (hrx : rx ≤ e2) (hlr : lx ≤ rx) :
    0 ≤ (rx - lx) / (e2 - e1) ∧ (rx - lx) / (e2 - e1) ≤ 1 :=
  ⟨div_nonneg (by linarith) (le_of_lt hW),
   by rw [div_le_one hW]; linarith⟩

/-- Two consecutive segment fractions with a common denominator add up. -/
theorem segment_frac_add (e1 e2 lx rx : ℚ) (hW : 0 < e2 - e1) :
    (lx - e1) / (e2 - e1) + (rx - lx) / (e2 - e1) =
      (rx - e1) / (e2 - e1) := by
  rw [div_add_div_same]
  congr 1
  ring

/-- A covered fraction that stops inside the bin is at most 1. -/
theorem segment_frac_le_one (e1 e2 rx : ℚ) (hW : 0 < e2 - e1)
    (hrx : rx ≤ e2) : (rx - e1) / (e2 - e1) ≤ 1 := by
  rw [div_le_one hW]
  linarith

/-- Invariant of the main scan of `_axisdistortion_python` on a square
`nx × nx` buffer with the target axis aliased to the original axis:
the scan never attempts an out-of-bounds matrix write, and on a normal
return every cell lies in `[0, 1]` and every column sums to at most 1.
(Overwriting of a cell by a later fine segment of the same column can
only lose mass, which is why 1 is an upper bound and not the exact
column sum of fully covered columns.) -/
theorem scanLoopF_inv (eo em eb : List ℚ) (nx : Nat)
    (hlem : em.length = eo.length) (hleb : eb.length = eo.length)
    (hnx : nx + 1 = eo.length) (hnx1 : 1 ≤ nx)
    (heo : List.Pairwise (fun a b => a < b) eo)
    (heb : List.Pairwise (fun a b => a < b) eb) :
    ∀ fuel (i0 i1 : Int) (iy : Nat) (lx ly wc : ℚ) (mat : Mat)
      (matF : Mat) (errF : Option DErr),
    -1 ≤ i0 → i0 < nx → -1 ≤ i1 → i1 < nx →
    ((0 ≤ i0 ∧ eo.getD i0.toNat 0 ≤ lx ∧ lx ≤ eo.getD (i0.toNat + 1) 0 ∧
      lx ≤ eb.getD (i1 + 1).toNat 0 ∧
      wc = eo.getD (i0.toNat + 1) 0 - eo.getD i0.toNat 0) ∨
     (i0 = -1 ∧ i1 = 0 ∧ lx = eo.getD 0 0 ∧ eb.getD 0 0 = eo.getD 0 0)) →
    (∀ r c, r < nx → c < nx → 0 ≤ mat r c ∧ mat r c ≤ 1) →
    (∀ r c, c < nx → i0 < (c : Int) → r < nx → mat r c = 0) →
    (0 ≤ i0 → colSum nx mat i0.toNat ≤
      (lx - eo.getD i0.toNat 0) /
        (eo.getD (i0.toNat + 1) 0 - eo.getD i0.toNat 0)) →
    (∀ c, c < nx → (c : Int) < i0 → colSum nx mat c ≤ 1) →
    scanLoopF fuel eo em eb eo nx nx nx nx i0 i1 iy lx ly wc mat =
      (matF, errF) →
    errF ≠ some .writeOOB ∧
    (errF = none →
      (∀ r c, r < nx → c < nx → 0 ≤ matF r c ∧ matF r c ≤ 1) ∧
      (∀ c, c < nx → colSum nx matF c ≤ 1)) := by
  intro fuel
  induction fuel with
  | zero =>
    intro i0 i1 iy lx ly wc mat matF errF h0 h1 h2 h3 hJ hM1 hM2 hM3 hM4 hres
    obtain ⟨-, rfl⟩ : mat = matF ∧ some DErr.fuelOut = errF := by
      simpa [scanLoopF] using hres
    exact ⟨by simp, by simp⟩
  | succ fuel ih =>
    intro i0 i1 iy lx ly wc mat matF errF h0 h1 h2 h3 hJ hM1 hM2 hM3 hM4 hres
    unfold scanLoopF at hres
    rw [scanChoice_eval eo em eb i0 i1 hlem hleb h0 (by omega) h2
      (by omega)] at hres
    rcases hJ with ⟨hi0, hJ1, hJ2, hJ3, hJw⟩ | ⟨hi0m, hi1z, hlxe, hebe⟩
    · -- normal state: 0 ≤ idxx0
      obtain ⟨k, rfl⟩ : ∃ k : Nat, i0 = (k : Int) := ⟨i0.toNat, by omega⟩
      have htk : ((k : Int)).toNat = k := by omega
      have htk1 : ((k : Int) + 1).toNat = k + 1 := by omega
      rw [htk] at hJ1 hJ2 hM3 hJw
      rw [htk1] at hres
      have hknx : k < nx := by omega
      have hk1len : k + 1 < eo.length := by omega
      have hW : 0 < eo.getD (k + 1) 0 - eo.getD k 0 :=
        sub_pos.mpr (listGetD_lt eo heo k (k + 1) (by omega) hk1len)
      by_cases hab : eo.getD (k + 1) 0 < eb.getD (i1 + 1).toNat 0
      · -- axis-0 breakpoint
        rw [if_pos hab] at hres
        dsimp only at hres
        rcases hadv : advanceIdxyF (eo.length + 1) eo nx ly iy with e | iy2
        · rw [hadv] at hres
          dsimp only at hres
          obtain ⟨-, rfl⟩ : mat = matF ∧ some e = errF := by
            simpa using hres
          rcases advanceIdxyF_err (eo.length + 1) eo nx ly iy e hadv with
            rfl | rfl
          · exact ⟨by simp, by simp⟩
          · exact ⟨by simp, by simp⟩
        · rw [hadv] at hres
          dsimp only at hres
          have hiy2 : iy2 < nx :=
            advanceIdxyF_ok_lt (eo.length + 1) eo nx ly iy iy2 hnx hadv
          have hcast : ((k : Int)) = ((k : Nat) : Int) := rfl
          rw [pySetM_ok nx nx mat iy2 k
            ((eo.getD (k + 1) 0 - lx) / wc) hiy2 hknx] at hres
          dsimp only at hres
          rw [if_pos rfl] at hres
          have hv := segment_frac_bounds (eo.getD k 0) (eo.getD (k + 1) 0)
            lx (eo.getD (k + 1) 0) hW hJ1 (le_refl _) hJ2
          rw [← hJw] at hv
          have hM1b := matSet_entries nx mat iy2 k
            ((eo.getD (k + 1) 0 - lx) / wc) hv.1 hv.2 hM1
          have hcolk : colSum nx
              (matSet mat iy2 k ((eo.getD (k + 1) 0 - lx) / wc)) k =
              colSum nx mat k - mat iy2 k +
                (eo.getD (k + 1) 0 - lx) / wc :=
            colSum_matSet_same nx mat iy2 k _ hiy2
          have hcolk2 : colSum nx
              (matSet mat iy2 k ((eo.getD (k + 1) 0 - lx) / wc)) k ≤
              (eo.getD (k + 1) 0 - eo.getD k 0) /
                (eo.getD (k + 1) 0 - eo.getD k 0) := by
            rw [hcolk, hJw]
            have h5 := hM3 (by omega)
            have h6 := (hM1 iy2 k hiy2 hknx).1
            have h7 := segment_frac_add (eo.getD k 0) (eo.getD (k + 1) 0)
              lx (eo.getD (k + 1) 0) hW
            linarith
          have hcolk1 : colSum nx
              (matSet mat iy2 k ((eo.getD (k + 1) 0 - lx) / wc)) k ≤ 1 := by
            have := div_self (ne_of_gt hW)
            linarith
          by_cases hstop : (nx : Int) ≤ (k : Int) + 1
          · rw [if_pos hstop] at hres
            obtain ⟨rfl, rfl⟩ :
                matSet mat iy2 k ((eo.getD (k + 1) 0 - lx) / wc) = matF ∧
                (none : Option DErr) = errF := by simpa using hres
            refine ⟨by simp, fun _ => ⟨hM1b, ?_⟩⟩
            intro c hc
            rcases Nat.lt_trichotomy c k with hck | hck | hck
            · rw [colSum_matSet_other nx mat iy2 k _ c (by omega)]
              exact hM4 c hc (by omega)
            · subst hck
              exact hcolk1
            · rw [colSum_matSet_other nx mat iy2 k _ c (by omega)]
              rw [colSum_eq_zero nx mat c
                (fun r hr => hM2 r c hc (by omega) hr)]
              norm_num
          · rw [if_neg hstop] at hres
            rw [pyGetL_some eo ((k : Int) + 2) (by omega) (by omega),
              pyGetL_some eo ((k : Int) + 1) (by omega) (by omega)] at hres
            dsimp only at hres
            have htk2 : ((k : Int) + 2).toNat = k + 2 := by omega
            rw [htk2, htk1] at hres
            refine ih ((k : Int) + 1) i1 iy2 (eo.getD (k + 1) 0)
              (em.getD (k + 1) 0)
              (eo.getD (k + 2) 0 - eo.getD (k + 1) 0)
              (matSet mat iy2 k ((eo.getD (k + 1) 0 - lx) / wc)) matF errF
              (by omega) (by omega) h2 h3 ?_ hM1b ?_ ?_ ?_ hres
            · left
              rw [htk1]
              refine ⟨by omega, le_refl _, ?_, le_of_lt hab, rfl⟩
              exact le_of_lt (listGetD_lt eo heo (k + 1) (k + 1 + 1)
                (by omega) (by omega))
            · intro r c hc hkc hr
              rw [matSet_apply, if_neg (by omega)]
              exact hM2 r c hc (by omega) hr
            · intro _
              rw [htk1]
              have h5 : ∀ r, r < nx →
                  matSet mat iy2 k ((eo.getD (k + 1) 0 - lx) / wc) r
                    (k + 1) = 0 := by
                intro r hr
                rw [matSet_apply, if_neg (by omega)]
                exact hM2 r (k + 1) (by omega) (by omega) hr
              rw [colSum_eq_zero nx _ (k + 1) h5, sub_self, zero_div]
            · intro c hc hck
              rcases Nat.lt_trichotomy c k with hck2 | hck2 | hck2
              · rw [colSum_matSet_other nx mat iy2 k _ c (by omega)]
                exact hM4 c hc (by omega)
              · subst hck2
                exact hcolk1
              · omega
      · -- axis-1 breakpoint
        rw [if_neg hab] at hres
        dsimp only at hres
        rcases hadv : advanceIdxyF (eo.length + 1) eo nx ly iy with e | iy2
        · rw [hadv] at hres
          dsimp only at hres
          obtain ⟨-, rfl⟩ : mat = matF ∧ some e = errF := by
            simpa using hres
          rcases advanceIdxyF_err (eo.length + 1) eo nx ly iy e hadv with
            rfl | rfl
          · exact ⟨by simp, by simp⟩
          · exact ⟨by simp, by simp⟩
        · rw [hadv] at hres
          dsimp only at hres
          have hiy2 : iy2 < nx :=
            advanceIdxyF_ok_lt (eo.length + 1) eo nx ly iy iy2 hnx hadv
          rw [pySetM_ok nx nx mat iy2 k
            ((eb.getD (i1 + 1).toNat 0 - lx) / wc) hiy2 hknx] at hres
          dsimp only at hres
          have hone : ¬ ((1 : Nat) = 0) := by omega
          rw [if_neg hone] at hres
          have hBle : eb.getD (i1 + 1).toNat 0 ≤ eo.getD (k + 1) 0 :=
            le_of_not_lt hab
          have hv := segment_frac_bounds (eo.getD k 0) (eo.getD (k + 1) 0)
            lx (eb.getD (i1 + 1).toNat 0) hW hJ1 hBle hJ3
          rw [← hJw] at hv
          have hM1b := matSet_entries nx mat iy2 k
            ((eb.getD (i1 + 1).toNat 0 - lx) / wc) hv.1 hv.2 hM1
          have hcolk : colSum nx
              (matSet mat iy2 k ((eb.getD (i1 + 1).toNat 0 - lx) / wc)) k =
              colSum nx mat k - mat iy2 k +
                (eb.getD (i1 + 1).toNat 0 - lx) / wc :=
            colSum_matSet_same nx mat iy2 k _ hiy2
          have hcolk2 : colSum nx
              (matSet mat iy2 k ((eb.getD (i1 + 1).toNat 0 - lx) / wc)) k ≤
              (eb.getD (i1 + 1).toNat 0 - eo.getD k 0) /
                (eo.getD (k + 1) 0 - eo.getD k 0) := by
            rw [hcolk, hJw]
            have h5 := hM3 (by omega)
            have h6 := (hM1 iy2 k hiy2 hknx).1
            have h7 := segment_frac_add (eo.getD k 0) (eo.getD (k + 1) 0)
              lx (eb.getD (i1 + 1).toNat 0) hW
            linarith
          have hcolk1 : colSum nx
              (matSet mat iy2 k ((eb.getD (i1 + 1).toNat 0 - lx) / wc)) k ≤
              1 := by
            have h5 := segment_frac_le_one (eo.getD k 0) (eo.getD (k + 1) 0)
              (eb.getD (i1 + 1).toNat 0) hW hBle
            linarith
          by_cases hstop : (nx : Int) ≤ i1 + 1
          · rw [if_pos hstop] at hres
            obtain ⟨rfl, rfl⟩ :
                matSet mat iy2 k ((eb.getD (i1 + 1).toNat 0 - lx) / wc) =
                  matF ∧ (none : Option DErr) = errF := by simpa using hres
            refine ⟨by simp, fun _ => ⟨hM1b, ?_⟩⟩
            intro c hc
            rcases Nat.lt_trichotomy c k with hck | hck | hck
            · rw [colSum_matSet_other nx mat iy2 k _ c (by omega)]
              exact hM4 c hc (by omega)
            · subst hck
              exact hcolk1
            · rw [colSum_matSet_other nx mat iy2 k _ c (by omega)]
              rw [colSum_eq_zero nx mat c
                (fun r hr => hM2 r c hc (by omega) hr)]
              norm_num
          · rw [if_neg hstop] at hres
            have hti1 : (i1 + 1 + 1).toNat = (i1 + 1).toNat + 1 := by omega
            refine ih (k : Int) (i1 + 1) iy2 (eb.getD (i1 + 1).toNat 0)
              (eo.getD (i1 + 1).toNat 0) wc
              (matSet mat iy2 k ((eb.getD (i1 + 1).toNat 0 - lx) / wc))
              matF errF (by omega) (by omega) (by omega) (by omega)
              ?_ hM1b ?_ ?_ ?_ hres
            · left
              refine ⟨by omega, le_trans hJ1 hJ3, hBle, ?_, hJw⟩
              rw [hti1]
              exact le_of_lt (listGetD_lt eb heb (i1 + 1).toNat
                ((i1 + 1).toNat + 1) (by omega) (by omega))
            · intro r c hc hkc hr
              rw [matSet_apply, if_neg (by omega)]
              exact hM2 r c hc (by omega) hr
            · intro _
              exact hcolk2
            · intro c hc hck
              rcases Nat.lt_trichotomy c k with hck2 | hck2 | hck2
              · rw [colSum_matSet_other nx mat iy2 k _ c (by omega)]
                exact hM4 c hc (by omega)
              · subst hck2
                exact hcolk1
              · omega
    · -- degenerate start: idxx0 = -1 with backwards[0] = original[0]
      subst hi1z
      subst hi0m
      have hike : eo.getD ((-1 : Int) + 1).toNat 0 <
          eb.getD ((0 : Int) + 1).toNat 0 := by
        have h5 : eb.getD 0 0 < eb.getD 1 0 :=
          listGetD_lt eb heb 0 1 (by omega) (by omega)
        have h6 : ((-1 : Int) + 1).toNat = 0 := by omega
        have h7 : ((0 : Int) + 1).toNat = 1 := by omega
        rw [h6, h7, ← hebe]
        exact h5
      rw [if_pos hike] at hres
      dsimp only at hres
      rcases hadv : advanceIdxyF (eo.length + 1) eo nx ly iy with e | iy2
      · rw [hadv] at hres
        dsimp only at hres
        obtain ⟨-, rfl⟩ : mat = matF ∧ some e = errF := by
          simpa using hres
        rcases advanceIdxyF_err (eo.length + 1) eo nx ly iy e hadv with
          rfl | rfl
        · exact ⟨by simp, by simp⟩
        · exact ⟨by simp, by simp⟩
      · rw [hadv] at hres
        dsimp only at hres
        have hiy2 : iy2 < nx :=
          advanceIdxyF_ok_lt (eo.length + 1) eo nx ly iy iy2 hnx hadv
        have ht0 : ((-1 : Int) + 1).toNat = 0 := by omega
        rw [ht0] at hres
        have hv0 : (eo.getD 0 0 - lx) / wc = 0 := by
          rw [hlxe, sub_self, zero_div]
        rw [hv0] at hres
        rw [pySetM_negOne_ok nx nx mat iy2 0 hiy2 (by omega)] at hres
        dsimp only at hres
        rw [if_pos rfl] at hres
        have hstop : ¬ ((nx : Int) ≤ -1 + 1) := by omega
        rw [if_neg hstop] at hres
        rw [pyGetL_some eo ((-1 : Int) + 2) (by omega) (by omega),
          pyGetL_some eo ((-1 : Int) + 1) (by omega) (by omega)] at hres
        dsimp only at hres
        have ht1 : ((-1 : Int) + 2).toNat = 1 := by omega
        rw [ht1, ht0] at hres
        have hn1 : (-1 : Int) + 1 = 0 := by omega
        rw [hn1] at hres
        have hall : ∀ r c, r < nx → c < nx →
            matSet mat iy2 (nx - 1) 0 r c = 0 := by
          intro r c hr hc
          by_cases ht : r = iy2 ∧ c = nx - 1
          · rw [matSet_apply, if_pos ht]
          · rw [matSet_apply, if_neg ht]
            exact hM2 r c hc (by omega) hr
        refine ih 0 0 iy2 (eo.getD 0 0) (em.getD 0 0)
          (eo.getD 1 0 - eo.getD 0 0) (matSet mat iy2 (nx - 1) 0)
          matF errF (by omega) (by omega) (by omega) (by omega)
          ?_ ?_ ?_ ?_ ?_ hres
        · left
          have ht00 : ((0 : Int)).toNat = 0 := rfl
          have ht01 : ((0 : Int) + 1).toNat = 1 := rfl
          rw [ht00, ht01]
          refine ⟨le_refl _, le_refl _, ?_, ?_, rfl⟩
          · exact le_of_lt (listGetD_lt eo heo 0 1 (by omega) (by omega))
          · rw [← hebe]
            exact le_of_lt (listGetD_lt eb heb 0 1 (by omega) (by omega))
        · intro r c hr hc
          rw [hall r c hr hc]
          norm_num
        · intro r c hc h5 hr
          exact hall r c hr hc
        · intro _
          have ht00 : ((0 : Int)).toNat = 0 := rfl
          rw [ht00]
          rw [colSum_eq_zero nx _ 0 (fun r hr => hall r 0 hr (by omega))]
          rw [sub_self, zero_div]
        · intro c hc hck
          omega

/-- Phase 1 performs no writes: its only failures are read errors or
fuel exhaustion. -/
theorem seekLoopF_no_write (eo em eb et : List ℚ) (minO minT : ℚ)
    (nx : Nat) :
    ∀ fuel (i0 i1 : Int) (lx ly : ℚ) e,
    seekLoopF fuel eo em eb et minO minT nx i0 i1 lx ly = .error e →
    e = .readOOB ∨ e = .fuelOut := by
  intro fuel
  induction fuel with
  | zero =>
    intro i0 i1 lx ly e h
    simp [seekLoopF] at h
    simp [h]
  | succ fuel ih =>
    intro i0 i1 lx ly e h
    unfold seekLoopF at h
    by_cases hcond : lx ≤ thresholdQ ∨ lx < minO ∨ ly < minT
    · rw [if_pos hcond] at h
      rcases hg1 : pyGetL eo (i0 + 1) with _ | a
      · rw [hg1] at h
        rcases hg2 : pyGetL eb (i1 + 1) with _ | b <;> rw [hg2] at h <;>
          simp at h <;> simp [h]
      · rw [hg1] at h
        rcases hg2 : pyGetL eb (i1 + 1) with _ | b
        · rw [hg2] at h
          simp at h
          simp [h]
        · rw [hg2] at h
          dsimp only at h
          by_cases hab : a < b
          · rw [if_pos hab] at h
            rcases hg3 : pyGetL eo 0 with _ | x
            · rw [hg3] at h
              rcases hg4 : pyGetL em 0 with _ | y <;> rw [hg4] at h <;>
                simp at h <;> simp [h]
            · rw [hg3] at h
              rcases hg4 : pyGetL em 0 with _ | y
              · rw [hg4] at h
                simp at h
                simp [h]
              · rw [hg4] at h
                dsimp only at h
                by_cases hstop : (nx : Int) ≤ i0 + 1
                · rw [if_pos hstop] at h
                  simp at h
                · rw [if_neg hstop] at h
                  exact ih (i0 + 1) i1 x y e h
          · rw [if_neg hab] at h
            rcases hg3 : pyGetL eb 0 with _ | x
            · rw [hg3] at h
              rcases hg4 : pyGetL et 0 with _ | y <;> rw [hg4] at h <;>
                simp at h <;> simp [h]
            · rw [hg3] at h
              rcases hg4 : pyGetL et 0 with _ | y
              · rw [hg4] at h
                simp at h
                simp [h]
              · rw [hg4] at h
                dsimp only at h
                by_cases hstop : (nx : Int) ≤ i1 + 1
                · rw [if_pos hstop] at h
                  simp at h
                · rw [if_neg hstop] at h
                  exact ih i0 (i1 + 1) x y e h
    · rw [if_neg hcond] at h
      simp at h

/-- Master invariant of the full distortion build on a valid square
input: it never attempts an out-of-bounds write, and when it returns
normally every cell of the result lies in `[0, 1]` and every column
sums to at most 1. -/
theorem distortion_run_inv (eo em eb : List ℚ) (init : Mat)
    (matF : Mat) (errF : Option DErr)
    (hlem : em.length = eo.length) (hleb : eb.length = eo.length)
    (hlen : 2 ≤ eo.length)
    (heo : List.Pairwise (fun a b => a < b) eo)
    (heb : List.Pairwise (fun a b => a < b) eb)
    (hres : axisdistortionPython eo em eb (eo.length - 1) (eo.length - 1)
      init = (matF, errF)) :
    errF ≠ some .writeOOB ∧
    (errF = none →
      (∀ r c, r < eo.length - 1 → c < eo.length - 1 →
        0 ≤ matF r c ∧ matF r c ≤ 1) ∧
      (∀ c, c < eo.length - 1 → colSum (eo.length - 1) matF c ≤ 1)) := by
  unfold axisdistortionPython at hres
  dsimp only at hres
  rw [pyGetL_zero eo (by omega)] at hres
  dsimp only at hres
  rcases hseek : seekLoopF (2 * eo.length + 2) eo em eb eo (eo.getD 0 0)
      (eo.getD 0 0) (eo.length - 1) (-1) (-1) thresholdQ thresholdQ with
    e | ost
  · rw [hseek] at hres
    dsimp only at hres
    obtain ⟨-, rfl⟩ : (fun _ _ => (0 : ℚ)) = matF ∧ some e = errF := by
      simpa using hres
    rcases seekLoopF_no_write eo em eb eo (eo.getD 0 0) (eo.getD 0 0)
      (eo.length - 1) (2 * eo.length + 2) (-1) (-1) thresholdQ thresholdQ
      e hseek with rfl | rfl
    · exact ⟨by simp, by simp⟩
    · exact ⟨by simp, by simp⟩
  · rcases ost with _ | ⟨i0, i1, lx, ly⟩
    · rw [hseek] at hres
      dsimp only at hres
      obtain ⟨rfl, rfl⟩ : (fun _ _ => (0 : ℚ)) = matF ∧
          (none : Option DErr) = errF := by simpa using hres
      refine ⟨by simp, fun _ => ⟨fun r c hr hc => by norm_num, ?_⟩⟩
      intro c hc
      rw [colSum_eq_zero _ _ c (fun r hr => rfl)]
      norm_num
    · rw [hseek] at hres
      dsimp only at hres
      have hexit := seekLoopF_exit eo em eb (eo.length - 1) hlem hleb
        (by omega) (by omega) heo heb (2 * eo.length + 2) (-1) (-1)
        thresholdQ thresholdQ i0 i1 lx ly (by omega) (by omega) (by omega)
        (by omega) (fun h => absurd h (by omega))
        (fun h => absurd h (by omega)) (fun h => absurd h (by omega))
        (Or.inl ⟨rfl, rfl, rfl, rfl⟩) hseek
      obtain ⟨hb0, hb1, hb2, hb3, hJx⟩ := hexit
      rcases hJx with ⟨hi0, hx1, hx2, hx3⟩ | ⟨hi0m, hi1z, hlxe, hebe⟩
      · -- start with idxx0 ≥ 0
        rw [pyGetL_some eo (i0 + 1) (by omega) (by omega),
          pyGetL_some eo i0 (by omega) (by omega)] at hres
        dsimp only at hres
        have ht : (i0 + 1).toNat = i0.toNat + 1 := by omega
        rw [ht] at hres
        refine scanLoopF_inv eo em eb (eo.length - 1) hlem hleb (by omega)
          (by omega) heo heb (2 * eo.length + 2) i0 i1 0 lx ly
          (eo.getD (i0.toNat + 1) 0 - eo.getD i0.toNat 0)
          (fun _ _ => 0) matF errF hb0 hb1 hb2 hb3
          (Or.inl ⟨hi0, hx1, hx2, hx3, rfl⟩)
          (fun r c hr hc => by norm_num)
          (fun r c hc h5 hr => rfl) ?_ ?_ hres
        · intro h5
          rw [colSum_eq_zero _ _ i0.toNat (fun r hr => rfl)]
          have hpos : 0 < eo.getD (i0.toNat + 1) 0 - eo.getD i0.toNat 0 :=
            sub_pos.mpr (listGetD_lt eo heo i0.toNat (i0.toNat + 1)
              (by omega) (by omega))
          exact div_nonneg (by linarith) (le_of_lt hpos)
        · intro c hc h5
          rw [colSum_eq_zero _ _ c (fun r hr => rfl)]
          norm_num
      · -- degenerate start with idxx0 = -1
        subst hi0m
        subst hi1z
        rw [pyGetL_some eo ((-1 : Int) + 1) (by omega) (by omega),
          pyGetL_negOne eo (by omega)] at hres
        dsimp only at hres
        refine scanLoopF_inv eo em eb (eo.length - 1) hlem hleb (by omega)
          (by omega) heo heb (2 * eo.length + 2) (-1) 0 0 lx ly
          (eo.getD ((-1 : Int) + 1).toNat 0 - eo.getD (eo.length - 1) 0)
          (fun _ _ => 0) matF errF (by omega) (by omega) (by omega)
          (by omega) (Or.inr ⟨rfl, rfl, hlxe, hebe⟩)
          (fun r c hr hc => by norm_num)
          (fun r c hc h5 hr => rfl)
          (fun h5 => absurd h5 (by omega)) ?_ hres
        intro c hc h5
        rw [colSum_eq_zero _ _ c (fun r hr => rfl)]
        norm_num

/-- C1 (amended): on every valid distortion input — three strictly
increasing edge sequences of equal length `N+1` and an `N × N` output
buffer — if the build returns normally then every matrix entry lies in
`[0, 1]` and every column sum lies below or at 1.  A column fully
covered by the distortion image may still sum to strictly less than 1,
because the cell assignment `matrix[idxy, idxx0] = ...` lets a later
fine segment overwrite an earlier one in the same cell
(`distortion_colsum_counterexample`). -/
theorem distortion_entries_colsum_bounds (eo em eb : List ℚ) (init : Mat)
    (matF : Mat)
    (hlem : em.length = eo.length) (hleb : eb.length = eo.length)
    (hlen : 2 ≤ eo.length)
    (heo : List.Pairwise (fun a b => a < b) eo)
    (hem : List.Pairwise (fun a b => a < b) em)
    (heb : List.Pairwise (fun a b => a < b) eb)
    (hres : axisdistortionPython eo em eb (eo.length - 1) (eo.length - 1)
      init = (matF, none)) :
    (∀ r c, r < eo.length - 1 → c < eo.length - 1 →
      0 ≤ matF r c ∧ matF r c ≤ 1) ∧
    (∀ c, c < eo.length - 1 → colSum (eo.length - 1) matF c ≤ 1) :=
  (distortion_run_inv eo em eb init matF none hlem hleb hlen heo heb
    hres).2 rfl

/-- Witness for C1 (amended) on the `test1` fixture. -/
theorem distortion_entries_colsum_bounds_witness :
    (0 ≤ runT1.1 0 0 ∧ runT1.1 0 0 ≤ 1) ∧ colSum 4 runT1.1 3 ≤ 1 := by
  have h2 : runT1.2 = none := by with_unfolding_all decide
  have hres : axisdistortionPython eoT1 emT1 ebT1 (eoT1.length - 1)
      (eoT1.length - 1) zeroM = (runT1.1, none) :=
    Prod.ext_iff.mpr ⟨rfl, h2⟩
  have h := distortion_entries_colsum_bounds eoT1 emT1 ebT1 zeroM runT1.1
    rfl rfl (by decide) (by with_unfolding_all decide)
    (by with_unfolding_all decide) (by with_unfolding_all decide) hres
  exact ⟨h.1 0 0 (by decide) (by decide), h.2 3 (by decide)⟩

/-- C7 (amended): on every valid distortion input the build never
performs an out-of-bounds matrix write while accumulating into
`matrix[idxy, idxx0]` — the row produced by the `idxy` advance is
always within the destination rows.  The advance is *not* free of
out-of-bounds reads, however: before the `idxy > nbinsy` break guard
can fire, the loop condition reads `edges_target[idxy + 1]` once past
the array (`distortion_oob_read_counterexample`). -/
theorem distortion_no_oob_write (eo em eb : List ℚ) (init : Mat)
    (matF : Mat) (errF : Option DErr)
    (hlem : em.length = eo.length) (hleb : eb.length = eo.length)
    (hlen : 2 ≤ eo.length)
    (heo : List.Pairwise (fun a b => a < b) eo)
    (hem : List.Pairwise (fun a b => a < b) em)
    (heb : List.Pairwise (fun a b => a < b) eb)
    (hres : axisdistortionPython eo em eb (eo.length - 1) (eo.length - 1)
      init = (matF, errF)) :
    errF ≠ some .writeOOB :=
  (distortion_run_inv eo em eb init matF errF hlem hleb hlen heo heb
    hres).1

/-- Witness for C7 (amended) on the `test1` fixture. -/
theorem distortion_no_oob_write_witness :
    runT1.2 ≠ some DErr.writeOOB :=
  distortion_no_oob_write eoT1 emT1 ebT1 zeroM runT1.1 runT1.2
    rfl rfl (by decide) (by with_unfolding_all decide)
    (by with_unfolding_all decide) (by with_unfolding_all decide) rfl

/-- Unfolding one step of the `enumerate(edges_old)` iterator: when the
list of not-yet-yielded elements is a cons, the yielded element is the
list value at the cursor and the tail is the remaining suffix. -/
theorem list_drop_cons (xs : List ℚ) :
    ∀ (n : Nat) (y : ℚ) (ys : List ℚ), xs.drop n = y :: ys →
    n < xs.length ∧ xs.getD n 0 = y ∧ xs.drop (n + 1) = ys := by
  induction xs with
  | nil =>
    intro n y ys h
    rw [List.drop_nil] at h
    exact absurd h (by simp)
  | cons a t ih =>
    intro n y ys h
    cases n with
    | zero =>
      rw [List.drop_zero] at h
      injection h with h1 h2
      refine ⟨by simp, ?_, ?_⟩
      · rw [← h1]; rfl
      · rw [← h2]; rfl
    | succ k =>
      rw [List.drop_succ_cons] at h
      obtain ⟨h1, h2, h3⟩ := ih k y ys h
      refine ⟨by simp; omega, ?_, ?_⟩
      · rw [List.getD_cons_succ]; exact h2
      · rw [List.drop_succ_cons]; exact h3

/-- Monotonicity of `numpy.isclose` in its second argument towards the
first, for `0 ≤ rtol ≤ 1`: if `b` is within tolerance of `a` and `b2`
lies between `b` and `a`, then `b2` is within tolerance of `a` too. -/
theorem npisclose_mono (atol rtol a b b2 : ℚ) (hr0 : 0 ≤ rtol)
    (hr1 : rtol ≤ 1) (h : npisclose a b atol rtol = true) (hbb : b ≤ b2)
    (hba : b2 < a) : npisclose a b2 atol rtol = true := by
  simp only [npisclose, decide_eq_true_eq] at h ⊢
  rw [abs_of_pos (by linarith : (0:ℚ) < a - b)] at h
  rw [abs_of_pos (by linarith : (0:ℚ) < a - b2)]
  rcases le_or_lt 0 b with hb | hb
  · rw [abs_of_nonneg hb] at h
    rw [abs_of_nonneg (le_trans hb hbb)]
    nlinarith [mul_le_mul_of_nonneg_left hbb hr0]
  · rw [abs_of_neg hb] at h
    rcases le_or_lt b2 0 with hb2 | hb2
    · rw [abs_of_nonpos hb2]
      nlinarith [mul_le_mul_of_nonneg_right hbb (sub_nonneg.mpr hr1)]
    · rw [abs_of_pos hb2]
      nlinarith [mul_nonneg hr0 (le_of_lt hb2),
        mul_le_mul_of_nonneg_right (le_of_lt hb) (sub_nonneg.mpr hr1)]

/-- Invariant of the inner rebin while-loop on its success exit: the
iterator state stays consistent with `edges_old`, the cursor does not
move backwards, cells stay 0/1, columns at or past the cursor stay
untouched, every column sum stays 0 or 1, and every passed column
whose old edge is at or past `edges_new[0]` has received exactly one
`1`. -/
theorem rebinInnerPy_partition (atol rtol enPrev en : ℚ) (eo : List ℚ)
    (nrows ncols inew : Nat) :
    ∀ (remOld : List ℚ) (iold : Nat) (edgeOld : ℚ) (mat mat2 : Mat)
      (iold2 : Nat) (edgeOld2 : ℚ) (remOld2 : List ℚ),
    iold < eo.length →
    edgeOld = eo.getD iold 0 →
    remOld = eo.drop (iold + 1) →
    (∀ r c, mat r c = 0 ∨ mat r c = 1) →
    (∀ c, iold ≤ c → ∀ r, mat r c = 0) →
    (∀ c, colSum nrows mat c = 0 ∨ colSum nrows mat c = 1) →
    (∀ c, c < iold → enPrev ≤ eo.getD c 0 → colSum nrows mat c = 1) →
    rebinInnerPy atol rtol enPrev en eo.length nrows ncols inew
      iold edgeOld remOld mat = (mat2, .ok (iold2, edgeOld2, remOld2)) →
    iold ≤ iold2 ∧ iold2 < eo.length ∧
    edgeOld2 = eo.getD iold2 0 ∧ remOld2 = eo.drop (iold2 + 1) ∧
    (∀ r c, mat2 r c = 0 ∨ mat2 r c = 1) ∧
    (∀ c, iold2 ≤ c → ∀ r, mat2 r c = 0) ∧
    (∀ c, colSum nrows mat2 c = 0 ∨ colSum nrows mat2 c = 1) ∧
    (∀ c, c < iold2 → enPrev ≤ eo.getD c 0 → colSum nrows mat2 c = 1) := by
  intro remOld
  induction remOld with
  | nil =>
    intro iold edgeOld mat mat2 iold2 edgeOld2 remOld2 hlt hedge hrem
      hz hf hcol hdone hres
    unfold rebinInnerPy at hres
    by_cases hc : edgeOld < en ∧ ¬ npisclose en edgeOld atol rtol
    · rw [if_pos hc] at hres
      by_cases hg : edgeOld ≥ enPrev ∨ npisclose edgeOld enPrev atol rtol
      · rw [if_pos hg] at hres
        by_cases hb : inew - 1 < nrows ∧ iold < ncols
        · rw [if_pos hb] at hres
          dsimp only at hres
          simp at hres
        · rw [if_neg hb] at hres
          dsimp only at hres
          simp at hres
      · rw [if_neg hg] at hres
        dsimp only at hres
        simp at hres
    · rw [if_neg hc] at hres
      simp only [Prod.mk.injEq, Except.ok.injEq] at hres
      obtain ⟨rfl, rfl, rfl, rfl⟩ := hres
      exact ⟨le_refl _, hlt, hedge, hrem, hz, hf, hcol, hdone⟩
  | cons e2 rest ih =>
    intro iold edgeOld mat mat2 iold2 edgeOld2 remOld2 hlt hedge hrem
      hz hf hcol hdone hres
    obtain ⟨hlt1, hget1, hdrop1⟩ := list_drop_cons eo (iold + 1) e2 rest
      hrem.symm
    unfold rebinInnerPy at hres
    by_cases hc : edgeOld < en ∧ ¬ npisclose en edgeOld atol rtol
    · rw [if_pos hc] at hres
      by_cases hg : edgeOld ≥ enPrev ∨ npisclose edgeOld enPrev atol rtol
      · rw [if_pos hg] at hres
        by_cases hb : inew - 1 < nrows ∧ iold < ncols
        · rw [if_pos hb] at hres
          dsimp only at hres
          by_cases hk : eo.length ≤ iold + 1
          · rw [if_pos hk] at hres
            simp at hres
          · rw [if_neg hk] at hres
            have hzero_col : colSum nrows mat iold = 0 :=
              colSum_eq_zero nrows mat iold fun r _ => hf iold (le_refl _) r
            have hcell : mat (inew - 1) iold = 0 := hf iold (le_refl _) _
            have hsum1 : colSum nrows (matSet mat (inew - 1) iold 1)
                iold = 1 := by
              rw [colSum_matSet_same nrows mat (inew - 1) iold 1 hb.1,
                hzero_col, hcell]
              ring
            have hres2 := ih (iold + 1) e2 (matSet mat (inew - 1) iold 1)
              mat2 iold2 edgeOld2 remOld2 hlt1 hget1.symm hdrop1.symm
              (fun r c => by
                by_cases ht : r = inew - 1 ∧ c = iold
                · right; rw [matSet_apply, if_pos ht]
                · rw [matSet_other _ _ _ _ _ _ ht]; exact hz r c)
              (fun c hcge r => by
                rw [matSet_other _ _ _ _ _ _ (fun ht => by omega)]
                exact hf c (by omega) r)
              (fun c => by
                by_cases hcio : c = iold
                · subst hcio; right; exact hsum1
                · rw [colSum_matSet_other _ _ _ _ _ c hcio]; exact hcol c)
              (fun c hcv hn => by
                rcases Nat.lt_or_ge c iold with hci | hci
                · rw [colSum_matSet_other _ _ _ _ _ c (by omega)]
                  exact hdone c hci hn
                · have : c = iold := by omega
                  subst this
                  exact hsum1)
              hres
            exact ⟨by omega, hres2.2.1, hres2.2.2.1, hres2.2.2.2.1,
              hres2.2.2.2.2.1, hres2.2.2.2.2.2.1, hres2.2.2.2.2.2.2.1,
              hres2.2.2.2.2.2.2.2⟩
        · rw [if_neg hb] at hres
          dsimp only at hres
          simp at hres
      · rw [if_neg hg] at hres
        dsimp only at hres
        by_cases hk : eo.length ≤ iold + 1
        · rw [if_pos hk] at hres
          simp at hres
        · rw [if_neg hk] at hres
          push_neg at hg
          have hres2 := ih (iold + 1) e2 mat mat2 iold2 edgeOld2 remOld2
            hlt1 hget1.symm hdrop1.symm hz
            (fun c hcge r => hf c (by omega) r) hcol
            (fun c hcv hn => by
              rcases Nat.lt_or_ge c iold with hci | hci
              · exact hdone c hci hn
              · have : c = iold := by omega
                subst this
                exact absurd hn (by rw [← hedge]; exact not_le.mpr hg.1))
            hres
          exact ⟨by omega, hres2.2.1, hres2.2.2.1, hres2.2.2.2.1,
            hres2.2.2.2.2.1, hres2.2.2.2.2.2.1, hres2.2.2.2.2.2.2.1,
            hres2.2.2.2.2.2.2.2⟩
    · rw [if_neg hc] at hres
      simp only [Prod.mk.injEq, Except.ok.injEq] at hres
      obtain ⟨rfl, rfl, rfl, rfl⟩ := hres
      exact ⟨le_refl _, hlt, hedge, hrem, hz, hf, hcol, hdone⟩

/-- Invariant of the outer rebin for-loop on the success path: the
final matrix is 0/1 with every column sum 0 or 1; moreover the old
cursor exits at some `ioldF` such that every passed column at or past
`edges_new[0]` sums to exactly 1, columns at or past `ioldF` are
untouched, and (when at least one destination edge was processed) the
exit edge `edges_old[ioldF]` is within `isclose` tolerance of the last
processed destination edge. -/
theorem rebinOuterPy_partition (atol rtol enPrev : ℚ) (eo : List ℚ)
    (nrows ncols : Nat) :
    ∀ (ens : List ℚ) (inew iold : Nat) (edgeOld : ℚ) (remOld : List ℚ)
      (mat matF : Mat),
    iold < eo.length →
    edgeOld = eo.getD iold 0 →
    remOld = eo.drop (iold + 1) →
    (∀ r c, mat r c = 0 ∨ mat r c = 1) →
    (∀ c, iold ≤ c → ∀ r, mat r c = 0) →
    (∀ c, colSum nrows mat c = 0 ∨ colSum nrows mat c = 1) →
    (∀ c, c < iold → enPrev ≤ eo.getD c 0 → colSum nrows mat c = 1) →
    rebinOuterPy atol rtol enPrev eo.length nrows ncols ens inew iold
      edgeOld remOld mat = (matF, none) →
    ∃ ioldF, iold ≤ ioldF ∧ ioldF < eo.length ∧
      (∀ r c, matF r c = 0 ∨ matF r c = 1) ∧
      (∀ c, ioldF ≤ c → ∀ r, matF r c = 0) ∧
      (∀ c, colSum nrows matF c = 0 ∨ colSum nrows matF c = 1) ∧
      (∀ c, c < ioldF → enPrev ≤ eo.getD c 0 → colSum nrows matF c = 1) ∧
      (ens = [] → ioldF = iold) ∧
      (ens ≠ [] →
        npisclose (ens.getD (ens.length - 1) 0) (eo.getD ioldF 0)
          atol rtol = true) := by
  intro ens
  induction ens with
  | nil =>
    intro inew iold edgeOld remOld mat matF hlt hedge hrem hz hf hcol
      hdone hres
    unfold rebinOuterPy at hres
    simp only [Prod.mk.injEq] at hres
    obtain ⟨rfl, -⟩ := hres
    exact ⟨iold, le_refl _, hlt, hz, hf, hcol, hdone, fun _ => rfl,
      fun h => absurd rfl h⟩
  | cons en rest ih =>
    intro inew iold edgeOld remOld mat matF hlt hedge hrem hz hf hcol
      hdone hres
    unfold rebinOuterPy at hres
    rcases hin : rebinInnerPy atol rtol enPrev en eo.length nrows ncols
        inew iold edgeOld remOld mat with ⟨mat2, res2⟩
    rw [hin] at hres
    rcases res2 with e | ⟨iold2, edgeOld2, remOld2⟩
    · dsimp only at hres
      simp at hres
    · dsimp only at hres
      by_cases hcl : ¬ npisclose en edgeOld2 atol rtol
      · rw [if_pos hcl] at hres
        simp at hres
      · rw [if_neg hcl] at hres
        have hclv : npisclose en edgeOld2 atol rtol = true := not_not.mp hcl
        obtain ⟨h1, h2, h3, h4, hz2, hf2, hcol2, hdone2⟩ :=
          rebinInnerPy_partition atol rtol enPrev en eo nrows ncols inew
            remOld iold edgeOld mat mat2 iold2 edgeOld2 remOld2 hlt hedge
            hrem hz hf hcol hdone hin
        obtain ⟨ioldF, hF0, hFlt, hFz, hFf, hFcol, hFdone, hFnil,
          hFlast⟩ := ih (inew + 1) iold2 edgeOld2 remOld2 mat2 matF h2 h3
            h4 hz2 hf2 hcol2 hdone2 hres
        refine ⟨ioldF, by omega, hFlt, hFz, hFf, hFcol, hFdone,
          fun h => absurd h (by simp), ?_⟩
        intro _
        rcases rest with _ | ⟨r0, rrest⟩
        · have hEq : ioldF = iold2 := hFnil rfl
          show npisclose en (eo.getD ioldF 0) atol rtol = true
          rw [hEq, ← h3]
          exact hclv
        · have hlast := hFlast (by simp)
          have hL : ((en :: r0 :: rrest : List ℚ)).length - 1 =
              rrest.length + 1 := by simp
          have hL2 : ((r0 :: rrest : List ℚ)).length - 1 =
              rrest.length := by simp
          rw [hL, List.getD_cons_succ]
          rw [hL2] at hlast
          exact hlast

/-- C2 (amended): for strictly increasing `edges_old` / `edges_new`
(each with at least two edges), tolerances `0 ≤ rtol ≤ 1`, and a
pre-zeroed output buffer, whenever `_calc_rebin_matrix_python` returns
normally the result is a 0/1 matrix in which every column sums to 0 or
1 — each old bin contributes to at most one new bin.  A column whose
old bin starts at or past `new[0]` and ends strictly before `new[last]`
sums to exactly 1 *provided* its left old edge is not within `isclose`
tolerance of the last new edge; without that proviso the original
"exactly one" claim is false: an old bin strictly inside the covered
range but within tolerance of the final new edge is silently dropped
and its column sums to 0 (`rebin_partition_counterexample`). -/
theorem rebin_partition_guarantee (eo en : List ℚ) (nrows ncols : Nat)
    (atol rtol : ℚ) (matF : Mat)
    (heo : List.Pairwise (fun a b => a < b) eo)
    (hen : List.Pairwise (fun a b => a < b) en)
    (hlo : 2 ≤ eo.length) (hln : 2 ≤ en.length)
    (hr0 : 0 ≤ rtol) (hr1 : rtol ≤ 1)
    (hres : rebinPython eo en nrows ncols zeroM atol rtol =
      (matF, none)) :
    (∀ r c, matF r c = 0 ∨ matF r c = 1) ∧
    (∀ c, colSum nrows matF c = 0 ∨ colSum nrows matF c = 1) ∧
    (∀ i, i + 1 < eo.length →
      en.getD 0 0 ≤ eo.getD i 0 →
      eo.getD (i + 1) 0 < en.getD (en.length - 1) 0 →
      ¬ npisclose (en.getD (en.length - 1) 0) (eo.getD i 0) atol rtol
        = true →
      colSum nrows matF i = 1) := by
  rcases eo with _ | ⟨e0, rest0⟩
  · simp at hlo
  rcases en with _ | ⟨n0, ent⟩
  · simp at hln
  rcases ent with _ | ⟨n1, ent2⟩
  · simp at hln
  unfold rebinPython at hres
  rw [pyGetL_zero (n0 :: n1 :: ent2) (by simp),
    pyGetL_zero (e0 :: rest0) (by simp)] at hres
  dsimp only at hres
  by_cases h1 : (e0 :: rest0).getD 0 0 ≤ (n0 :: n1 :: ent2).getD 0 0 ∨
      npisclose ((n0 :: n1 :: ent2).getD 0 0) ((e0 :: rest0).getD 0 0)
        atol rtol
  · rw [if_pos h1] at hres
    rw [pyGetL_negOne (n0 :: n1 :: ent2) (by simp),
      pyGetL_negOne (e0 :: rest0) (by simp)] at hres
    dsimp only at hres
    by_cases h2 : (n0 :: n1 :: ent2).getD
        ((n0 :: n1 :: ent2).length - 1) 0 ≤
        (e0 :: rest0).getD ((e0 :: rest0).length - 1) 0 ∨
        npisclose
          ((n0 :: n1 :: ent2).getD ((n0 :: n1 :: ent2).length - 1) 0)
          ((e0 :: rest0).getD ((e0 :: rest0).length - 1) 0) atol rtol
    · rw [if_pos h2] at hres
      simp only [List.drop_succ_cons, List.drop_zero] at hres
      obtain ⟨ioldF, hF0, hFlt, hFz, hFf, hFcol, hFdone, hFnil,
        hFlast⟩ := rebinOuterPy_partition atol rtol
          ((n0 :: n1 :: ent2).getD 0 0) (e0 :: rest0) nrows ncols
          (n1 :: ent2) 1 0 e0 rest0 zeroM matF (by simp) rfl rfl
          (fun r c => Or.inl rfl) (fun c _ r => rfl)
          (fun c => Or.inl (colSum_eq_zero nrows zeroM c fun r _ => rfl))
          (fun c hc => absurd hc (by omega)) hres
      have hclose0 := hFlast (by simp)
      have hLeq : ((n0 :: n1 :: ent2 : List ℚ)).getD
          ((n0 :: n1 :: ent2).length - 1) 0 =
          (n1 :: ent2).getD ((n1 :: ent2).length - 1) 0 := by
        have h5 : ((n0 :: n1 :: ent2 : List ℚ)).length - 1 =
            ent2.length + 1 := by simp
        have h6 : ((n1 :: ent2 : List ℚ)).length - 1 = ent2.length := by
          simp
        rw [h5, h6, List.getD_cons_succ]
      refine ⟨hFz, hFcol, ?_⟩
      intro i hi1 hge hlt2 hncl
      by_cases hio : i < ioldF
      · exact hFdone i hio hge
      · exfalso
        have hle2 : (e0 :: rest0).getD ioldF 0 ≤
            (e0 :: rest0).getD i 0 :=
          listGetD_le _ heo ioldF i (by omega) (by omega)
        have hlt3 : (e0 :: rest0).getD i 0 <
            (n0 :: n1 :: ent2).getD ((n0 :: n1 :: ent2).length - 1) 0 :=
          lt_trans (listGetD_lt _ heo i (i + 1) (by omega) hi1) hlt2
        exact hncl (npisclose_mono atol rtol
          ((n0 :: n1 :: ent2).getD ((n0 :: n1 :: ent2).length - 1) 0)
          ((e0 :: rest0).getD ioldF 0) ((e0 :: rest0).getD i 0)
          hr0 hr1 (by rw [hLeq]; exact hclose0) hle2 hlt3)
    · rw [if_neg h2] at hres
      simp at hres
  · rw [if_neg h1] at hres
    simp at hres

/-- Witness input for the amended C2 guarantee: `old = [0, 1, 2]`,
`new = [0, 2]` grouping both old bins into one, with exact tolerances. -/
def eoW2 : List ℚ := [0, 1, 2]

/-- Witness destination edges for the amended C2 guarantee. -/
def enW2 : List ℚ := [0, 2]

/-- The rebin build on the C2 witness input (1 destination row, 2
source columns, pre-zeroed buffer, `atol = rtol = 0`). -/
def runW2 : Mat × Option RErr := rebinPython eoW2 enW2 1 2 zeroM 0 0

/-- Witness for C2 (amended): on `old = [0,1,2]`, `new = [0,2]` the
build succeeds, cells are 0/1 and the column of the first old bin sums
to exactly 1. -/
theorem rebin_partition_guarantee_witness :
    (runW2.1 0 1 = 0 ∨ runW2.1 0 1 = 1) ∧ colSum 1 runW2.1 0 = 1 := by
  have h2 : runW2.2 = none := by with_unfolding_all decide
  have hres : rebinPython eoW2 enW2 1 2 zeroM 0 0 = (runW2.1, none) :=
    Prod.ext_iff.mpr ⟨rfl, h2⟩
  have h := rebin_partition_guarantee eoW2 enW2 1 2 0 0 runW2.1
    (by with_unfolding_all decide) (by with_unfolding_all decide)
    (by decide) (by decide) (by decide) (by decide) hres
  exact ⟨h.1 0 1, h.2.2 0 (by decide) (by with_unfolding_all decide)
    (by with_unfolding_all decide) (by with_unfolding_all decide)⟩
